import Mathlib

/-!
Verification of the Mirrow language implementation (lexer, token-vector
parser, front end, and the spec-described import-ordering check) against
its natural-language specification.

The embedding mirrors the Rust sources:
* `Mirrow.Lexer`  — `src/library/lexer.rs` (character-level lexer).
* `Mirrow.Parse`  — `src/parser.rs` together with the `Precedence` ladder
  of `src/types/constants.rs` (the token-vector parser).
* `Mirrow.Front`  — `runtime::compile_and_run{_with_debug}` of `src/main.rs`.
* `Mirrow.Compile` — the import-ordering validation (the compiler source is
  not part of the tree; that check is modelled from the spec).

Rust `f64` values are modelled as exact rationals `ℚ` (IEEE-754 rounding is
abstracted away; no claim below depends on rounding). Rust `usize` values
(line counters) are modelled as `ℕ`.
-/

namespace Mirrow.Lexer

/-- `TokenKind` from `src/library/lexer.rs` (the enum has no `Underscore`
variant; this is exactly the list of variants in the source). -/
inductive TokenKind where
  | Identifier | Number | String | InterpolatedString
  | Let | Func | If | Else | True | False | Match | Fn | Async | Await
  | Import | Enum | Power
  | Equal | EqualEqual | BangEqual | GreaterEqual | LessEqual | Greater | Less
  | Plus | Minus | Star | Slash | Comma | Semicolon | Colon | DoubleColon
  | Bang | LBrace | RBrace | LBracket | RBracket | LParen | RParen | Dot
  | And | Or | Arrow | Question | Reflect | Pipe | Pipeline | LArrow | Dollar
  | Eof | Error
  deriving DecidableEq, Repr

/-- `TokenValue` from `src/library/lexer.rs`; `f64` payloads become `ℚ`. -/
inductive TokenValue where
  | None
  | Identifier (s : String)
  | Number (q : ℚ)
  | String (s : String)
  | Error (s : String)
  deriving DecidableEq, Repr

/-- `Token` from `src/library/lexer.rs`. -/
structure Token where
  kind : TokenKind
  value : TokenValue
  line : Nat
  deriving DecidableEq, Repr

/-- `Token::eof()` from `src/library/lexer.rs`: the synthesized sentinel,
with `line: 0` as in the source. -/
def Token.eof : Token := ⟨TokenKind.Eof, TokenValue.None, 0⟩

/-- The lexer state: the remaining characters (whose head is the Rust
field `current`) and the 1-based line counter. -/
abbrev LexSt := List Char × Nat

/-- Line update performed by `Lexer::advance` when the consumed character
is a newline. -/
def advLine (c : Char) (l : Nat) : Nat := if c = '\n' then l + 1 else l

/-- `Lexer::skip_whitespace`. -/
def skipWhitespace : List Char → Nat → List Char × Nat
  | [], l => ([], l)
  | c :: cs, l =>
      if c.isWhitespace then skipWhitespace cs (advLine c l) else (c :: cs, l)

/-- The `//`-comment loop inside `Lexer::skip_comments`: consume up to,
but not including, the next newline. -/
def skipLineComment : List Char → Nat → List Char × Nat
  | [], l => ([], l)
  | c :: cs, l => if c = '\n' then (c :: cs, l) else skipLineComment cs l

/-- The `/*`-comment loop inside `Lexer::skip_comments`: consume up to and
including the next `*/`; if none occurs, consume the rest of the input. -/
def skipBlockComment : List Char → Nat → List Char × Nat
  | '*' :: '/' :: cs, l => (cs, l)
  | c :: cs, l => skipBlockComment cs (advLine c l)
  | [], l => ([], l)

/-- The `loop { skip_whitespace(); if !skip_comments() { break } }` at the
top of `Lexer::next`, with explicit fuel (each iteration either consumes a
whitespace character or a comment opener, so `length + 1` fuel always
suffices; `lexNext` below supplies it). -/
def skipAllF : Nat → List Char → Nat → List Char × Nat
  | 0, cs, l => (cs, l)
  | _ + 1, [], l => ([], l)
  | f + 1, c :: cs, l =>
      if c.isWhitespace then skipAllF f cs (advLine c l)
      else if c = '/' then
        match cs with
        | '/' :: rest =>
            let q := skipLineComment rest l
            skipAllF f q.1 q.2
        | '*' :: rest =>
            let q := skipBlockComment rest l
            skipAllF f q.1 q.2
        | _ => (c :: cs, l)
      else (c :: cs, l)

/-- The character class consumed by `Lexer::make_number`
(`ch.is_ascii_digit() || ch == '.'`). -/
def isNumChar (c : Char) : Bool := c.isDigit || c = '.'

/-- Numeric value of a digit string (most significant first). -/
def digitsToNat (s : List Char) : Nat :=
  s.foldl (fun n c => n * 10 + (c.toNat - '0'.toNat)) 0

/-- Modelled from the spec: Rust's standard-library `f64::from_str`,
restricted to the strings `make_number` can produce (digits and dots).
Such a string parses successfully iff it is nonempty, contains at least
one digit, and has at most one dot; the resulting value is modelled as the
exact rational (IEEE-754 rounding abstracted). -/
def parseF64 (s : List Char) : Option ℚ :=
  if !s.isEmpty && s.all isNumChar && decide (s.count '.' ≤ 1)
      && s.any Char.isDigit then
    let ip := s.takeWhile (fun c => c ≠ '.')
    let fp := (s.dropWhile (fun c => c ≠ '.')).drop 1
    some ((digitsToNat ip : ℚ) + (digitsToNat fp : ℚ) / ((10 : ℚ) ^ fp.length))
  else
    none

/-- `Lexer::make_number`: consume the maximal digit/dot run, then parse it;
on parse failure produce `Error("Invalid number: …")`.  (None of the
consumed characters is a newline, so the line counter is unchanged.) -/
def makeNumber (cs : List Char) (l : Nat) : Token × LexSt :=
  let number := cs.takeWhile isNumChar
  let rest := cs.dropWhile isNumChar
  match parseF64 number with
  | some q => (⟨TokenKind.Number, TokenValue.Number q, l⟩, (rest, l))
  | none =>
      (⟨TokenKind.Error, TokenValue.Error ("Invalid number: " ++ number.asString), l⟩,
        (rest, l))

/-- The escape handling of `Lexer::make_regular_string`. -/
def escPush (acc : String) (e : Char) : String :=
  match e with
  | 'n' => acc.push '\n'
  | 't' => acc.push '\t'
  | 'r' => acc.push '\r'
  | '\\' => acc.push '\\'
  | '"' => acc.push '"'
  | _ => (acc.push '\\').push e

/-- The main loop of `Lexer::make_regular_string` (entered after the
opening quote is consumed): `"` closes, `\\` escapes, anything else is
copied; exhausting the input yields `Error("Unterminated string")`. -/
def makeRegularString : List Char → Nat → String → Token × LexSt
  | [], l, _ => (⟨TokenKind.Error, TokenValue.Error "Unterminated string", l⟩, ([], l))
  | '"' :: cs, l, acc => (⟨TokenKind.String, TokenValue.String acc, l⟩, (cs, l))
  | '\\' :: cs, l, acc =>
      match cs with
      | [] => (⟨TokenKind.Error, TokenValue.Error "Unterminated string", l⟩, ([], l))
      | e :: cs' => makeRegularString cs' (advLine e l) (escPush acc e)
  | c :: cs, l, acc => makeRegularString cs (advLine c l) (acc.push c)

/-- The escape handling of `Lexer::make_interpolated_string` (escapes are
kept in escaped form). -/
def escPushInterp (acc : String) (e : Char) : String :=
  (acc.push '\\').push e

/-- The main loop of `Lexer::make_interpolated_string` (entered after the
opening quote is consumed). -/
def makeInterpolatedString : List Char → Nat → String → Token × LexSt
  | [], l, _ =>
      (⟨TokenKind.Error, TokenValue.Error "Unterminated interpolated string", l⟩, ([], l))
  | '"' :: cs, l, acc =>
      (⟨TokenKind.InterpolatedString, TokenValue.String acc, l⟩, (cs, l))
  | '\\' :: cs, l, acc =>
      match cs with
      | [] =>
          (⟨TokenKind.Error, TokenValue.Error "Unterminated interpolated string", l⟩,
            ([], l))
      | e :: cs' => makeInterpolatedString cs' (advLine e l) (escPushInterp acc e)
  | c :: cs, l, acc => makeInterpolatedString cs (advLine c l) (acc.push c)

/-- The character class consumed by `Lexer::make_identifier`
(`ch.is_ascii_alphanumeric() || ch == '_'`). -/
def isIdentChar (c : Char) : Bool := c.isAlphanum || c = '_'

/-- The keyword table of `Lexer::make_identifier`. -/
def keywordKind (s : String) : TokenKind :=
  match s with
  | "let" => TokenKind.Let
  | "func" => TokenKind.Func
  | "if" => TokenKind.If
  | "else" => TokenKind.Else
  | "true" => TokenKind.True
  | "false" => TokenKind.False
  | "match" => TokenKind.Match
  | "fn" => TokenKind.Fn
  | "async" => TokenKind.Async
  | "await" => TokenKind.Await
  | "import" => TokenKind.Import
  | "enum" => TokenKind.Enum
  | _ => TokenKind.Identifier

/-- `Lexer::make_identifier`: consume the maximal identifier run, look it
up in the keyword table; an `Identifier` keeps the lexeme as payload. -/
def makeIdentifier (cs : List Char) (l : Nat) : Token × LexSt :=
  let ident := (cs.takeWhile isIdentChar).asString
  let rest := cs.dropWhile isIdentChar
  let kind := keywordKind ident
  (⟨kind,
    if kind = TokenKind.Identifier then TokenValue.Identifier ident else TokenValue.None,
    l⟩, (rest, l))

/-- A payload-free token at the current line. -/
def simple (k : TokenKind) (l : Nat) (rest : List Char) : Option (Token × LexSt) :=
  some (⟨k, TokenValue.None, l⟩, (rest, l))

/-- The token dispatch of `Lexer::next` from `src/library/lexer.rs`
(everything after the whitespace/comment skipping loop): `self.current?`
then the big `match` on the current character. -/
def lexDispatch (input : List Char) (lin : Nat) : Option (Token × LexSt) :=
  match input, lin with
  | [], _ => none
  | c :: cs, l =>
    match c with
    | '(' => simple TokenKind.LParen l cs
    | ')' => simple TokenKind.RParen l cs
    | '{' => simple TokenKind.LBrace l cs
    | '}' => simple TokenKind.RBrace l cs
    | '[' => simple TokenKind.LBracket l cs
    | ']' => simple TokenKind.RBracket l cs
    | ',' => simple TokenKind.Comma l cs
    | ';' => simple TokenKind.Semicolon l cs
    | '+' => simple TokenKind.Plus l cs
    | '-' =>
        match cs with
        | '>' :: cs' => simple TokenKind.Arrow l cs'
        | _ => simple TokenKind.Minus l cs
    | '*' =>
        match cs with
        | '*' :: cs' => simple TokenKind.Power l cs'
        | _ => simple TokenKind.Star l cs
    | '/' => simple TokenKind.Slash l cs
    | '.' => simple TokenKind.Dot l cs
    | '?' => simple TokenKind.Question l cs
    | '$' =>
        match cs with
        | '"' :: cs' => some (makeInterpolatedString cs' l "")
        | _ => simple TokenKind.Dollar l cs
    | '=' =>
        match cs with
        | '=' :: cs' => simple TokenKind.EqualEqual l cs'
        | _ => simple TokenKind.Equal l cs
    | '!' =>
        match cs with
        | '=' :: cs' => simple TokenKind.BangEqual l cs'
        | _ => simple TokenKind.Bang l cs
    | '<' =>
        match cs with
        | '=' :: cs' => simple TokenKind.LessEqual l cs'
        | '-' :: cs' => simple TokenKind.LArrow l cs'
        | _ => simple TokenKind.Less l cs
    | '>' =>
        match cs with
        | '=' :: cs' => simple TokenKind.GreaterEqual l cs'
        | _ => simple TokenKind.Greater l cs
    | ':' =>
        match cs with
        | ':' :: cs' => simple TokenKind.DoubleColon l cs'
        | _ => simple TokenKind.Colon l cs
    | '&' =>
        match cs with
        | '&' :: cs' => simple TokenKind.And l cs'
        | _ => simple TokenKind.Reflect l cs
    | '|' =>
        match cs with
        | '|' :: cs' => simple TokenKind.Or l cs'
        | '>' :: cs' => simple TokenKind.Pipeline l cs'
        | _ => simple TokenKind.Pipe l cs
    | '"' => some (makeRegularString cs l "")
    | _ =>
      if c.isDigit then some (makeNumber (c :: cs) l)
      else if c.isAlpha || c = '_' then some (makeIdentifier (c :: cs) l)
      else
        some (⟨TokenKind.Error, TokenValue.Error ("Unexpected character: " ++ c.toString),
          advLine c l⟩, (cs, advLine c l))

/-- `Lexer::next` from `src/library/lexer.rs`: skip whitespace/comments,
then dispatch on the current character. -/
def lexNext (st : LexSt) : Option (Token × LexSt) :=
  let p := skipAllF (st.1.length + 1) st.1 st.2
  lexDispatch p.1 p.2

/-- The last (1-based) line number of a source text: the value the lexer's
line counter has after consuming the whole input (`line` starts at 1 and
`advance` increments it once per newline). -/
def lastLine (cs : List Char) : Nat := 1 + cs.count '\n'

end Mirrow.Lexer

namespace Mirrow.Parse

/-- The token type consumed by `src/parser.rs` (declared in the crate's
`types::token` module; the variants and their payloads are exactly those
used by `src/parser.rs`).  `f64` payloads are modelled as `ℚ`. -/
inductive Token where
  | Let | LetBang | Func
  | Identifier (s : String)
  | Number (q : ℚ)
  | String (s : String)
  | Assign
  | LeftParen | RightParen | LeftBracket | RightBracket | LeftBrace | RightBrace
  | Comma
  | Plus | Minus | Multiply | Divide
  | Equal | NotEqual | Less | Greater | LessEqual | GreaterEqual
  | Pipeline | Update
  | Not | True | False
  | Newline | Eof
  deriving DecidableEq, Repr

/-- `UnaryOp` from the crate's `types::ast` module (as used by `src/parser.rs`). -/
inductive UnaryOp where
  | Neg | Not
  deriving DecidableEq, Repr

/-- `BinaryOp` from the crate's `types::ast` module (as used by `src/parser.rs`). -/
inductive BinaryOp where
  | Add | Sub | Mul | Div | Eq | Ne | Lt | Gt | Le | Ge
  deriving DecidableEq, Repr

/-- `Expr` from the crate's `types::ast` module: exactly the constructors
built by `src/parser.rs`.  Note there is no grouping/paren constructor. -/
inductive Expr where
  | Identifier (s : String)
  | Number (q : ℚ)
  | String (s : String)
  | Boolean (b : Bool)
  | Unary (op : UnaryOp) (right : Expr)
  | Binary (left : Expr) (op : BinaryOp) (right : Expr)
  | Array (elements : List Expr)
  | Call (func : Expr) (args : List Expr)
  | Pipeline (left : Expr) (right : Expr)
  | Update (left : Expr) (right : Expr)
  deriving Repr

/-- `Stmt` from the crate's `types::ast` module (as built by `src/parser.rs`). -/
inductive Stmt where
  | Expr (e : Expr) (line : Nat)
  | Let (name : String) (value : Expr) (line : Nat)
  | Func (name : String) (params : List String) (body : List Stmt) (line : Nat)
  deriving Repr

/-- `Program` from the crate's `types::ast` module. -/
structure Program where
  statements : List Stmt
  deriving Repr

/-- `Precedence` from `src/types/constants.rs` (`#[repr(u8)]`). -/
inductive Precedence where
  | Lowest | Pipeline | Comparison | Term | Factor | Unary
  deriving DecidableEq, Repr

/-- `Precedence::as_u8` from `src/types/constants.rs`. -/
def Precedence.asU8 : Precedence → Nat
  | .Lowest => 0
  | .Pipeline => 1
  | .Comparison => 2
  | .Term => 3
  | .Factor => 4
  | .Unary => 5

/-- Parser state.  The Rust parser keeps the full token vector plus a
cursor `pos`; we keep the remaining tokens (the head is `tokens[pos]`)
together with the number of `Newline` tokens already consumed (which is
what `Parser::current_line` counts).  `Parser::advance` never moves past
the final token (`if self.pos < self.tokens.len() - 1`), which the
singleton case below mirrors. -/
abbrev PSt := List Token × Nat

/-- `Parser::current`: `tokens.get(pos).unwrap_or(&Token::Eof)`. -/
def currentTok (st : PSt) : Token := st.1.headD Token.Eof

/-- `Parser::advance`: return the current token; move the cursor unless it
is already at the last token. -/
def advanceTok : PSt → PSt × Token
  | ([], n) => (([], n), Token.Eof)
  | ([t], n) => (([t], n), t)
  | (t :: rest, n) => ((rest, if t = Token.Newline then n + 1 else n), t)

/-- `Parser::current_line`: one plus the number of `Newline` tokens before
the cursor. -/
def currentLine (st : PSt) : Nat := st.2 + 1

/-- The discriminant (constructor tag) of a token, modelling Rust's
`std::mem::discriminant`. -/
def Token.tag : Token → Nat
  | .Let => 0 | .LetBang => 1 | .Func => 2
  | .Identifier _ => 3 | .Number _ => 4 | .String _ => 5
  | .Assign => 6
  | .LeftParen => 7 | .RightParen => 8 | .LeftBracket => 9 | .RightBracket => 10
  | .LeftBrace => 11 | .RightBrace => 12
  | .Comma => 13
  | .Plus => 14 | .Minus => 15 | .Multiply => 16 | .Divide => 17
  | .Equal => 18 | .NotEqual => 19 | .Less => 20 | .Greater => 21
  | .LessEqual => 22 | .GreaterEqual => 23
  | .Pipeline => 24 | .Update => 25
  | .Not => 26 | .True => 27 | .False => 28
  | .Newline => 29 | .Eof => 30

/-- `Parser::expect`: compare discriminants; on success consume the token. -/
def expectTok (expected : Token) (st : PSt) : Except String PSt :=
  if (currentTok st).tag = expected.tag then Except.ok (advanceTok st).1
  else Except.error ("Expected token at line " ++ toString (currentLine st))

/-- `Parser::skip_newlines`.  (With the `advance` guard, a token vector
whose final token is `Newline` makes the Rust loop spin forever; the
fall-through case below stops instead.  Token vectors are always
`Eof`-terminated in the claims, where the two agree.) -/
def skipNLAux : List Token → Nat → List Token × Nat
  | Token.Newline :: r :: rs, n => skipNLAux (r :: rs) (n + 1)
  | l, n => (l, n)

/-- `Parser::skip_newlines` on a parser state. -/
def skipNL (st : PSt) : PSt := skipNLAux st.1 st.2

/-- `Parser::precedence`: the precedence of the *current* token.  With
`right_parse = true` a literal-like current token has `Lowest` precedence;
with `right_parse = false` it is the "Invalid hanging literal" error. -/
def precedenceTok (rightParse : Bool) (st : PSt) : Except String Nat :=
  match currentTok st with
  | .Pipeline | .Update => Except.ok Precedence.Pipeline.asU8
  | .Equal | .NotEqual | .Less | .Greater | .LessEqual | .GreaterEqual =>
      Except.ok Precedence.Comparison.asU8
  | .Plus | .Minus => Except.ok Precedence.Term.asU8
  | .Multiply | .Divide => Except.ok Precedence.Factor.asU8
  | .LeftParen => Except.ok Precedence.Unary.asU8
  | .String _ | .Number _ | .Identifier _ | .True | .False
  | .LeftBracket | .LeftBrace =>
      if rightParse then Except.ok Precedence.Lowest.asU8
      else Except.error ("Invalid hanging literal at line " ++ toString (currentLine st))
  | _ => Except.ok Precedence.Lowest.asU8

/-- `Parser::binary_op`: the operator for the current token. -/
def binaryOpTok (st : PSt) : Except String BinaryOp :=
  match currentTok st with
  | .Plus => Except.ok BinaryOp.Add
  | .Minus => Except.ok BinaryOp.Sub
  | .Multiply => Except.ok BinaryOp.Mul
  | .Divide => Except.ok BinaryOp.Div
  | .Equal => Except.ok BinaryOp.Eq
  | .NotEqual => Except.ok BinaryOp.Ne
  | .Less => Except.ok BinaryOp.Lt
  | .Greater => Except.ok BinaryOp.Gt
  | .LessEqual => Except.ok BinaryOp.Le
  | .GreaterEqual => Except.ok BinaryOp.Ge
  | _ => Except.error ("Not a binary operator at line " ++ toString (currentLine st))

/-- The parameter-list contribution of one token in
`Parser::func_statement`: `if let Token::Identifier(p) = self.advance()
{ params.push(p) }` pushes the name for an identifier and nothing
otherwise. -/
def identOf (t : Token) : List String :=
  match t with
  | Token.Identifier s => [s]
  | _ => []

/-- Fuel-exhaustion marker.  The Rust parser can loop forever (e.g. an
`expression(0)` whose loop reaches a token that `led` does not consume),
so the embedding is fuel-indexed; `fuelMsg` is the out-of-fuel error. -/
def fuelMsg : String := "out of fuel"

mutual

/-- `Parser::expression`: `nud`, then the `while precedence >= min_prec`
loop (the loop lives in `exprLoop`). -/
def expressionF : Nat → Nat → PSt → Except String (Expr × PSt)
  | 0, _, _ => Except.error fuelMsg
  | f + 1, minPrec, st => do
      let (left, st) ← nudF f st
      exprLoopF f minPrec left st

/-- The `while self.precedence(false)? >= min_prec { left = self.led(left)? }`
loop of `Parser::expression`. -/
def exprLoopF : Nat → Nat → Expr → PSt → Except String (Expr × PSt)
  | 0, _, _, _ => Except.error fuelMsg
  | f + 1, minPrec, left, st => do
      let p ← precedenceTok false st
      if minPrec ≤ p then do
        let (left, st) ← ledF f left st
        exprLoopF f minPrec left st
      else
        Except.ok (left, st)

/-- `Parser::nud`. -/
def nudF : Nat → PSt → Except String (Expr × PSt)
  | 0, _ => Except.error fuelMsg
  | f + 1, st =>
      let st' := (advanceTok st).1
      match (advanceTok st).2 with
      | .Identifier s => Except.ok (Expr.Identifier s, st')
      | .Number n => Except.ok (Expr.Number n, st')
      | .String s => Except.ok (Expr.String s, st')
      | .LeftParen => do
          let (e, st2) ← expressionF f Precedence.Pipeline.asU8 st'
          let st3 ← expectTok Token.RightParen st2
          Except.ok (e, st3)
      | .Minus => do
          let (r, st2) ← expressionF f Precedence.Unary.asU8 st'
          Except.ok (Expr.Unary UnaryOp.Neg r, st2)
      | .Not => do
          let (r, st2) ← expressionF f Precedence.Unary.asU8 st'
          Except.ok (Expr.Unary UnaryOp.Not r, st2)
      | .LeftBracket =>
          if currentTok st' = Token.RightBracket then
            Except.ok (Expr.Array [], (advanceTok st').1)
          else do
            let (elems, st2) ← arrElemsF f [] st'
            let st3 ← expectTok Token.RightBracket st2
            Except.ok (Expr.Array elems, st3)
      | .True => Except.ok (Expr.Boolean true, st')
      | .False => Except.ok (Expr.Boolean false, st')
      | _ => Except.error ("Unexpected token in nud at line " ++ toString (currentLine st'))

/-- The element loop of the `Token::LeftBracket` case of `Parser::nud`
(array literal; allows a trailing comma). -/
def arrElemsF : Nat → List Expr → PSt → Except String (List Expr × PSt)
  | 0, _, _ => Except.error fuelMsg
  | f + 1, acc, st => do
      let (e, st) ← expressionF f Precedence.Pipeline.asU8 st
      let acc := acc ++ [e]
      match currentTok st with
      | .Comma =>
          let st := (advanceTok st).1
          if currentTok st = Token.RightBracket then Except.ok (acc, st)
          else arrElemsF f acc st
      | .RightBracket => Except.ok (acc, st)
      | _ =>
          Except.error ("Expected comma or bracket in array literal at line "
            ++ toString (currentLine st))

/-- `Parser::led`.  Note that for binary operators, `|>` and `<-` the Rust
code first advances past the operator and only then calls
`self.precedence(true)`, so the precedence consulted is that of the first
token of the right-hand side, not of the operator. -/
def ledF : Nat → Expr → PSt → Except String (Expr × PSt)
  | 0, _, _ => Except.error fuelMsg
  | f + 1, left, st =>
      match currentTok st with
      | .Plus | .Minus | .Multiply | .Divide | .Equal | .NotEqual
      | .Less | .Greater | .LessEqual | .GreaterEqual => do
          let op ← binaryOpTok st
          let st := (advanceTok st).1
          let p ← precedenceTok true st
          let (right, st) ← expressionF f (p + 1) st
          Except.ok (Expr.Binary left op right, st)
      | .LeftParen => do
          let st := (advanceTok st).1
          let (args, st) ← callArgsF f [] st
          let st ← expectTok Token.RightParen st
          Except.ok (Expr.Call left args, st)
      | .Pipeline => do
          let st := (advanceTok st).1
          let p ← precedenceTok true st
          let (right, st) ← expressionF f (p + 1) st
          Except.ok (Expr.Pipeline left right, st)
      | .Update => do
          let st := (advanceTok st).1
          -- Comment in the source: update is right-associative, parse RHS
          -- with the same precedence (no `+ 1`).
          let p ← precedenceTok true st
          let (right, st) ← expressionF f p st
          Except.ok (Expr.Update left right, st)
      | _ => Except.ok (left, st)

/-- The argument loop of the `Token::LeftParen` case of `Parser::led`. -/
def callArgsF : Nat → List Expr → PSt → Except String (List Expr × PSt)
  | 0, _, _ => Except.error fuelMsg
  | f + 1, acc, st =>
      if currentTok st = Token.RightParen then Except.ok (acc, st)
      else do
        let (e, st) ← expressionF f Precedence.Pipeline.asU8 st
        let acc := acc ++ [e]
        let st := if currentTok st = Token.Comma then (advanceTok st).1 else st
        callArgsF f acc st

/-- `Parser::statement`. -/
def statementF : Nat → PSt → Except String (Stmt × PSt)
  | 0, _ => Except.error fuelMsg
  | f + 1, st =>
      let line := currentLine st
      match currentTok st with
      | .Let | .LetBang => letStatementF f line st
      | .Func => funcStatementF f line st
      | _ => do
          let (e, st) ← expressionF f Precedence.Pipeline.asU8 st
          Except.ok (Stmt.Expr e line, st)

/-- `Parser::let_statement`. -/
def letStatementF : Nat → Nat → PSt → Except String (Stmt × PSt)
  | 0, _, _ => Except.error fuelMsg
  | f + 1, line, st =>
      let st0 := (advanceTok st).1
      let st := (advanceTok st0).1
      match (advanceTok st0).2 with
      | .Identifier name => do
          let st ← expectTok Token.Assign st
          let (value, st) ← expressionF f Precedence.Pipeline.asU8 st
          Except.ok (Stmt.Let name value line, st)
      | _ => Except.error ("Expected identifier at line " ++ toString (currentLine st))

/-- `Parser::func_statement`. -/
def funcStatementF : Nat → Nat → PSt → Except String (Stmt × PSt)
  | 0, _, _ => Except.error fuelMsg
  | f + 1, line, st =>
      let st0 := (advanceTok st).1
      let st := (advanceTok st0).1
      match (advanceTok st0).2 with
      | .Identifier name => do
          let st ← expectTok Token.LeftParen st
          let (params, st) ← paramsF f [] st
          let st ← expectTok Token.RightParen st
          let st ← expectTok Token.LeftBrace st
          let (body, st) ← bodyF f [] st
          let st ← expectTok Token.RightBrace st
          Except.ok (Stmt.Func name params body line, st)
      | _ => Except.error ("Expected identifier at line " ++ toString (currentLine st))

/-- The parameter loop of `Parser::func_statement`: take a token; push it
only when it is an identifier (anything else is silently dropped); then
skip one following comma. -/
def paramsF : Nat → List String → PSt → Except String (List String × PSt)
  | 0, _, _ => Except.error fuelMsg
  | f + 1, acc, st =>
      if currentTok st = Token.RightParen then Except.ok (acc, st)
      else
        let st1 := (advanceTok st).1
        let acc1 := acc ++ identOf (advanceTok st).2
        let st2 := if currentTok st1 = Token.Comma then (advanceTok st1).1 else st1
        paramsF f acc1 st2

/-- The body loop of `Parser::func_statement`. -/
def bodyF : Nat → List Stmt → PSt → Except String (List Stmt × PSt)
  | 0, _, _ => Except.error fuelMsg
  | f + 1, acc, st =>
      if currentTok st = Token.RightBrace then Except.ok (acc, st)
      else
        let st := skipNL st
        if currentTok st = Token.RightBrace then Except.ok (acc, st)
        else do
          let (s, st) ← statementF f st
          bodyF f (acc ++ [s]) st

/-- The statement loop of `Parser::parse` (`is_at_end` itself skips
newlines, and the loop body skips them again before parsing). -/
def parseLoopF : Nat → List Stmt → PSt → Except String Program
  | 0, _, _ => Except.error fuelMsg
  | f + 1, acc, st =>
      let st := skipNL st
      if currentTok st = Token.Eof then Except.ok ⟨acc⟩
      else
        let st := skipNL st
        if currentTok st = Token.Eof then Except.ok ⟨acc⟩
        else do
          let (s, st) ← statementF f st
          parseLoopF f (acc ++ [s]) st

end

/-- `Parser::parse` on a token vector (newline-consumed counter starts at 0). -/
def parseF (f : Nat) (tokens : List Token) : Except String Program :=
  parseLoopF f [] (tokens, 0)

/-- The identifiers among a token list, in order: what the parameter loop
of `Parser::func_statement` collects from the tokens between `(` and `)`. -/
def identNames (ts : List Token) : List String :=
  ts.filterMap fun t =>
    match t with
    | Token.Identifier s => some s
    | _ => none

/-- The state relation for the parenthesis-transparency proof: the two
states carry the same remaining tokens and newline count, except that the
first is terminated by `Eof` where the second is terminated by
`RightParen, Eof` (the suffix the wrapped parse `(e)` sees). -/
def ParenRel (σ τ : PSt) : Prop :=
  ∃ s n, σ = (s ++ [Token.Eof], n) ∧ τ = (s ++ [Token.RightParen, Token.Eof], n)

end Mirrow.Parse

namespace Mirrow.Front

/-- Rust's `str::ends_with` (as called by `filename.ends_with(".n")`),
as a character-list suffix test. -/
def strEndsWith (s suffix : String) : Bool :=
  List.isSuffixOf suffix.data s.data

/-- `runtime::compile_and_run_with_debug` from `src/main.rs`.  The file
system (`std::fs::read_to_string`) is abstracted as `readFile`, and the
whole lex/parse/compile/run pipeline applied to the file's contents as
`pipeline`.  The `.n`-extension check is the first statement of the Rust
function, before the file is read — hence `readFile` is consulted only in
the else branch. -/
def compileAndRunWithDebug (readFile : String → Except String String)
    (pipeline : String → Bool → Except String String)
    (filename : String) (debug : Bool) : Except String String :=
  if !(strEndsWith filename ".n") then
    Except.error "Error: File must have .n extension"
  else
    match readFile filename with
    | Except.error err =>
        Except.error ("Error reading file '" ++ filename ++ "': " ++ err)
    | Except.ok source => pipeline source debug

/-- `runtime::compile_and_run` from `src/main.rs`. -/
def compileAndRun (readFile : String → Except String String)
    (pipeline : String → Bool → Except String String)
    (filename : String) : Except String String :=
  compileAndRunWithDebug readFile pipeline filename false

end Mirrow.Front

namespace Mirrow.Compile

/-- Modelled from the spec: a top-level AST node as far as the compiler's
import-ordering validation is concerned (the compiler itself,
`library/compiler.rs`, is not part of the source tree; only its tests
are).  A node is either an `Import` with a path or some other statement. -/
inductive Node where
  | Import (path : String)
  | Other
  deriving DecidableEq, Repr

/-- Whether a node is an `Import`. -/
def Node.isImport : Node → Bool
  | Node.Import _ => true
  | Node.Other => false

/-- Modelled from the spec: "All `Import` nodes must precede all
non-import statements. The first non-import followed by any `Import` is a
compile error."  Scan the program in order, remembering whether a
non-import statement has been seen; an `Import` after that point fails the
validation. -/
def checkImportOrderGo (seenNonImport : Bool) : List Node → Bool
  | [] => true
  | Node.Import _ :: rest =>
      if seenNonImport then false else checkImportOrderGo seenNonImport rest
  | Node.Other :: rest => checkImportOrderGo true rest

/-- Modelled from the spec: the compiler's import-ordering validation over
the top-level nodes of a program. -/
def checkImportOrder (nodes : List Node) : Bool :=
  checkImportOrderGo false nodes

end Mirrow.Compile

namespace Mirrow.Lexer

/-- Whether a character list contains the block-comment terminator `*/`
(an adjacent `*` `/` pair), which is what the `/* … */` loop of
`Lexer::skip_comments` searches for. -/
def hasStarSlash : List Char → Bool
  | '*' :: '/' :: _ => true
  | _ :: rest => hasStarSlash rest
  | [] => false

/-- The shape `[0-9]+(\.[0-9]*)?` from the spec's Number rule, as a
decomposition: leading digits, optionally followed by a dot and digits. -/
def NumShape (s : List Char) : Prop :=
  ∃ ds fs, ds ≠ [] ∧ ds.all Char.isDigit = true ∧
    (s = ds ∨ (s = ds ++ '.' :: fs ∧ fs.all Char.isDigit = true))

end Mirrow.Lexer

section HelperLemmas

open Mirrow.Lexer Mirrow.Parse Mirrow.Front Mirrow.Compile

theorem makeRegularString_step (c : Char) (t : List Char) (l : Nat) (acc : String)
    (hq : c ≠ '"') (hb : c ≠ '\\') :
    makeRegularString (c :: t) l acc = makeRegularString t (advLine c l) (acc.push c) := by
  rw [makeRegularString.eq_def]
  split
  · simp_all
  · simp_all
  · simp_all
  · simp_all

theorem makeRegularString_plain (s : List Char) :
    ∀ (rest : List Char) (l : Nat) (acc : String),
      (∀ c ∈ s, c ≠ '"' ∧ c ≠ '\\') →
      makeRegularString (s ++ '"' :: rest) l acc =
        (⟨TokenKind.String, TokenValue.String (acc ++ s.asString), l + s.count '\n'⟩,
          (rest, l + s.count '\n')) := by
  induction s with
  | nil =>
      intro rest l acc _
      obtain ⟨accl⟩ := acc
      simp [makeRegularString, List.asString, String.append]
  | cons c s ih =>
      intro rest l acc h
      obtain ⟨hq, hb⟩ := h c (by simp)
      rw [List.cons_append, makeRegularString_step c _ l acc hq hb,
        ih rest (advLine c l) (acc.push c) (fun x hx => h x (by simp [hx]))]
      obtain ⟨accl⟩ := acc
      simp [advLine, List.count_cons, String.push, List.asString, String.append,
        List.append_assoc]
      split
      all_goals refine ⟨?_, by omega⟩
      all_goals show String.mk ((accl ++ [c]) ++ s) = String.mk (accl ++ c :: s)
      all_goals rw [List.append_assoc, List.singleton_append]

end HelperLemmas

section ClaimsEasy

open Mirrow.Lexer Mirrow.Parse Mirrow.Front Mirrow.Compile

/-- C1: the claim says a bare `_` (not followed by an identifier
character) lexes as a distinct `Underscore` token kind.  The `TokenKind`
enum of `src/library/lexer.rs` has no such variant: `Lexer::next` sends
`_` into `make_identifier`, which returns an `Identifier` token with
payload `"_"` — contradicting the spec and `tests/underscore_tests.rs`
(which names `TokenKind::Underscore`).  `_foo` is an `Identifier`, as the
claim says. -/
theorem lexer_bare_underscore_is_identifier :
    Mirrow.Lexer.lexNext ("_".toList, 1) =
      some (⟨TokenKind.Identifier, TokenValue.Identifier "_", 1⟩, ([], 1))
    ∧ Mirrow.Lexer.lexNext ("_ x".toList, 1) =
      some (⟨TokenKind.Identifier, TokenValue.Identifier "_", 1⟩, (" x".toList, 1))
    ∧ Mirrow.Lexer.lexNext ("_foo".toList, 1) =
      some (⟨TokenKind.Identifier, TokenValue.Identifier "_foo", 1⟩, ([], 1)) := by
  refine ⟨by decide, by decide, by decide⟩

/-- C2 counterexample: the claim says `'` opens a string literal, so that
lexing `'a'` yields a `String` token with payload `a`.  In
`Lexer::next` the quote character `'` has no arm and falls to the default
case, producing an `Error("Unexpected character: '")` token instead. -/
theorem lexer_single_quote_is_error_token :
    Mirrow.Lexer.lexNext ("'a'".toList, 1) =
      some (⟨TokenKind.Error, TokenValue.Error "Unexpected character: '", 1⟩,
        ("a'".toList, 1))
    ∧ TokenKind.Error ≠ TokenKind.String := by
  refine ⟨by decide, by decide⟩

/-- C2 (amended): string literals are opened and closed by `"` only; for
every source `"s"⋯` whose body contains no `"` and no `\`, `next()`
returns a `String` token whose payload is exactly the enclosed text. -/
theorem lexer_double_quoted_string_payload (s rest : List Char) (l : Nat)
    (h : ∀ c ∈ s, c ≠ '"' ∧ c ≠ '\\') :
    Mirrow.Lexer.lexNext ('"' :: s ++ '"' :: rest, l) =
      some (⟨TokenKind.String, TokenValue.String s.asString, l + s.count '\n'⟩,
        (rest, l + s.count '\n')) := by
  have hx := makeRegularString_plain s rest l "" h
  have h0 : lexNext ('"' :: s ++ '"' :: rest, l) =
      some (makeRegularString (s ++ '"' :: rest) l "") := rfl
  rw [h0, hx, show ∀ x : String, "" ++ x = x from fun ⟨d⟩ => rfl]

theorem lexer_double_quoted_string_payload_witness :
    (∀ c ∈ ['a', 'b'], c ≠ '"' ∧ c ≠ '\\') ∧
    Mirrow.Lexer.lexNext ('"' :: ['a', 'b'] ++ '"' :: [], 1) =
      some (⟨TokenKind.String, TokenValue.String (['a', 'b']).asString,
        1 + (['a', 'b']).count '\n'⟩, ([], 1 + (['a', 'b']).count '\n')) :=
  ⟨by decide, lexer_double_quoted_string_payload ['a', 'b'] [] 1 (by decide)⟩

/-- C7 counterexample: the claim says the synthesized `Eof` sentinel
carries `line = last_line`.  `Token::eof()` in `src/library/lexer.rs`
sets `line: 0`, which differs from the last line (2) of the two-line
source `"a\nb"`. -/
theorem eof_sentinel_line_not_last_line :
    ¬ (Mirrow.Lexer.Token.eof.line = Mirrow.Lexer.lastLine ("a\nb".toList)) := by
  decide

/-- C7 (amended): after the last token `next()` reports end of stream
(`None`), and the synthesized `Eof` sentinel carries `line = 0`. -/
theorem lexer_end_of_stream_and_eof_line_zero :
    (∀ l, Mirrow.Lexer.lexNext ([], l) = none) ∧ Mirrow.Lexer.Token.eof.line = 0 :=
  ⟨fun _ => rfl, rfl⟩

/-- C8: for every filename not ending in `.n`,
`compile_and_run`/`compile_and_run_with_debug` return exactly
`Error: File must have .n extension`, independently of the file-reading
oracle and the rest of the pipeline (the check precedes the read). -/
theorem front_rejects_non_n_extension
    (readFile : String → Except String String)
    (pipeline : String → Bool → Except String String)
    (filename : String) (debug : Bool)
    (h : strEndsWith filename ".n" = false) :
    compileAndRunWithDebug readFile pipeline filename debug =
      Except.error "Error: File must have .n extension"
    ∧ compileAndRun readFile pipeline filename =
      Except.error "Error: File must have .n extension" := by
  constructor <;> simp [compileAndRun, compileAndRunWithDebug, h]

theorem front_rejects_non_n_extension_witness :
    (strEndsWith "program.txt" ".n" = false)
    ∧ compileAndRunWithDebug (fun _ => Except.ok "") (fun _ _ => Except.ok "")
        "program.txt" true = Except.error "Error: File must have .n extension"
    ∧ compileAndRun (fun _ => Except.ok "") (fun _ _ => Except.ok "")
        "program.txt" = Except.error "Error: File must have .n extension" := by
  refine ⟨by decide, ?_, ?_⟩
  · exact (front_rejects_non_n_extension (fun _ => Except.ok "") (fun _ _ => Except.ok "")
      "program.txt" true (by decide)).1
  · exact (front_rejects_non_n_extension (fun _ => Except.ok "") (fun _ _ => Except.ok "")
      "program.txt" false (by decide)).2

end ClaimsEasy

section ClaimsCommentsImports

open Mirrow.Lexer Mirrow.Parse Mirrow.Front Mirrow.Compile

theorem hasStarSlash_cons_false {c : Char} {t : List Char}
    (h : hasStarSlash (c :: t) = false) : hasStarSlash t = false := by
  rw [hasStarSlash.eq_def] at h
  split at h
  · simp_all
  · simp_all
  · simp_all

theorem skipBlockComment_no_terminator (rest : List Char) :
    ∀ l, hasStarSlash rest = false → ∃ l', skipBlockComment rest l = ([], l') := by
  induction rest with
  | nil => intro l _; exact ⟨l, rfl⟩
  | cons c t ih =>
      intro l h
      rw [skipBlockComment.eq_def]
      split
      · rename_i cs heq
        rw [show c :: t = '*' :: '/' :: cs from heq, hasStarSlash.eq_def] at h
        simp at h
      · rename_i c' cs hno heq
        injection heq with h1 h2
        subst h1
        subst h2
        exact ih _ (hasStarSlash_cons_false h)
      · simp_all

/-- C10: for every input whose current position starts an unterminated
block comment `/*…` (no `*/` anywhere after), `Lexer::next` consumes the
remainder of the input as the comment and then reports end of stream
(`None`): no `Error` token is produced. -/
theorem lexer_unterminated_block_comment_is_end (rest : List Char) (l : Nat)
    (h : hasStarSlash rest = false) :
    Mirrow.Lexer.lexNext ('/' :: '*' :: rest, l) = none := by
  obtain ⟨l', hb⟩ := skipBlockComment_no_terminator rest l h
  have h1 : Mirrow.Lexer.lexNext ('/' :: '*' :: rest, l) =
      (fun q : List Char × Nat =>
        lexDispatch (skipAllF (rest.length + 2) q.1 q.2).1
          (skipAllF (rest.length + 2) q.1 q.2).2) (skipBlockComment rest l) := rfl
  rw [h1, hb]
  rfl

theorem lexer_unterminated_block_comment_is_end_witness :
    hasStarSlash "  xy /z * ".toList = false
    ∧ Mirrow.Lexer.lexNext ('/' :: '*' :: "  xy /z * ".toList, 1) = none :=
  ⟨by decide, lexer_unterminated_block_comment_is_end ("  xy /z * ".toList) 1 (by decide)⟩

theorem checkImportOrderGo_seen (ns : List Node) :
    checkImportOrderGo true ns = true ↔ ∀ x ∈ ns, x.isImport = false := by
  induction ns with
  | nil => simp [checkImportOrderGo]
  | cons x t ih =>
      cases x with
      | Import p => simp [checkImportOrderGo, Node.isImport]
      | Other => simp [checkImportOrderGo, Node.isImport, ih]

theorem checkImportOrder_iff (ns : List Node) :
    checkImportOrder ns = true ↔
      ∃ k, (∀ x ∈ ns.take k, x.isImport = true) ∧ ∀ x ∈ ns.drop k, x.isImport = false := by
  induction ns with
  | nil => exact ⟨fun _ => ⟨0, by simp⟩, fun _ => rfl⟩
  | cons x t ih =>
      cases x with
      | Import p =>
          rw [show checkImportOrder (Node.Import p :: t) = checkImportOrder t from rfl, ih]
          constructor
          · rintro ⟨k, h1, h2⟩
            exact ⟨k + 1, by simpa [Node.isImport] using h1, by simpa using h2⟩
          · rintro ⟨k, h1, h2⟩
            cases k with
            | zero =>
                simp only [List.take_zero] at h1
                simp only [List.drop_zero] at h2
                exact ⟨0, by simp, fun x hx => h2 x (List.mem_cons_of_mem _ (by simpa using hx))⟩
            | succ k =>
                refine ⟨k, fun x hx => h1 x ?_, fun x hx => h2 x ?_⟩
                · simpa using Or.inr hx
                · simpa using hx
      | Other =>
          rw [show checkImportOrder (Node.Other :: t) = checkImportOrderGo true t from rfl]
          rw [checkImportOrderGo_seen]
          constructor
          · intro h2
            refine ⟨0, by simp, ?_⟩
            intro x hx
            simp only [List.drop_zero] at hx
            rcases List.mem_cons.mp hx with rfl | hx
            · rfl
            · exact h2 x hx
          · rintro ⟨k, h1, h2⟩
            intro x hx
            cases k with
            | zero => exact h2 x (by simp [hx])
            | succ k =>
                exfalso
                have := h1 Node.Other (by simp)
                simp [Node.isImport] at this


theorem checkImportOrderGo_import_after (pre : List Node) (mid post : List Node) (p : String) :
    ∀ b, checkImportOrderGo b (pre ++ Node.Other :: mid ++ Node.Import p :: post) = false := by
  induction pre with
  | nil =>
      intro b
      show checkImportOrderGo true (mid ++ Node.Import p :: post) = false
      cases hgo : checkImportOrderGo true (mid ++ Node.Import p :: post)
      · rfl
      · exfalso
        have := (checkImportOrderGo_seen _).mp hgo (Node.Import p) (by simp)
        simp [Node.isImport] at this
  | cons x pre ih =>
      intro b
      cases x with
      | Import q =>
          cases b
          · exact ih false
          · rfl
      | Other => exact ih true

/-- C3 (import-ordering validation, modelled from the spec since the
compiler source is not under `src/`): the check succeeds iff the imports
form a prefix of the program; any program in which a non-import statement
is (anywhere) followed by an `Import` is rejected; and the two seed
programs of the spec behave as stated (`import "IO"; let x = 42` accepted,
`let x = 42; import "IO"` rejected). -/
theorem import_ordering_check :
    (∀ ns, checkImportOrder ns = true ↔
      ∃ k, (∀ x ∈ ns.take k, x.isImport = true) ∧ ∀ x ∈ ns.drop k, x.isImport = false)
    ∧ (∀ pre mid post p,
        checkImportOrder (pre ++ Node.Other :: mid ++ Node.Import p :: post) = false)
    ∧ checkImportOrder [Node.Other, Node.Import "IO"] = false
    ∧ checkImportOrder [Node.Import "IO", Node.Other] = true :=
  ⟨checkImportOrder_iff,
   fun pre mid post p => checkImportOrderGo_import_after pre mid post p false,
   by decide, by decide⟩

end ClaimsCommentsImports

section ClaimNumber

open Mirrow.Lexer

theorem digit_char_cases (c : Char) (h : c.isDigit = true) :
    c = '0' ∨ c = '1' ∨ c = '2' ∨ c = '3' ∨ c = '4' ∨
    c = '5' ∨ c = '6' ∨ c = '7' ∨ c = '8' ∨ c = '9' := by
  have hn : 48 ≤ c.toNat ∧ c.toNat ≤ 57 := by
    simp only [Char.isDigit, Bool.and_eq_true, decide_eq_true_eq] at h
    exact h
  have hc : c = Char.ofNat c.toNat := (Char.ofNat_toNat c).symm
  obtain ⟨h1, h2⟩ := hn
  interval_cases hv : c.toNat <;> rw [hc] <;> decide

theorem lexNext_digit (c : Char) (cs : List Char) (l : Nat) (h : c.isDigit = true) :
    lexNext (c :: cs, l) = some (makeNumber (c :: cs) l) := by
  rcases digit_char_cases c h with rfl | rfl | rfl | rfl | rfl | rfl | rfl | rfl | rfl | rfl <;>
    rfl

theorem dropWhile_head_false (p : Char → Bool) (l : List Char) (d : Char) (fs : List Char)
    (h : l.dropWhile p = d :: fs) : p d = false := by
  induction l with
  | nil => simp at h
  | cons x t ih =>
      by_cases hx : p x = true
      · rw [List.dropWhile_cons_of_pos hx] at h
        exact ih h
      · rw [List.dropWhile_cons_of_neg hx] at h
        cases h
        simpa using hx

theorem digit_dot_shape (s : List Char) (c : Char) (t : List Char) (hs : s = c :: t)
    (hc : c.isDigit = true) (hall : ∀ x ∈ s, isNumChar x = true)
    (hcnt : s.count '.' ≤ 1) : NumShape s := by
  refine ⟨s.takeWhile Char.isDigit, (s.dropWhile Char.isDigit).drop 1, ?_, ?_, ?_⟩
  · subst hs
    simp [List.takeWhile_cons, hc]
  · rw [List.all_eq_true]
    exact fun x hx => List.mem_takeWhile_imp hx
  · rcases hdw : s.dropWhile Char.isDigit with _ | ⟨d, fs⟩
    · left
      conv_lhs => rw [← List.takeWhile_append_dropWhile (p := Char.isDigit) (l := s)]
      rw [hdw, List.append_nil]
    · right
      have hdmem : d ∈ s := by
        have hsub : (s.dropWhile Char.isDigit).Sublist s := List.dropWhile_sublist _
        rw [hdw] at hsub
        exact hsub.mem (by simp)
      have hdnum : isNumChar d = true := hall d hdmem
      have hdnotdig : d.isDigit = false := dropWhile_head_false _ s d fs hdw
      have hdot : d = '.' := by
        simp only [isNumChar, Bool.or_eq_true, decide_eq_true_eq] at hdnum
        rcases hdnum with h1 | h1
        · rw [h1] at hdnotdig; cases hdnotdig
        · exact h1
      subst hdot
      have hsplit : s = s.takeWhile Char.isDigit ++ '.' :: fs := by
        conv_lhs => rw [← List.takeWhile_append_dropWhile (p := Char.isDigit) (l := s)]
        rw [hdw]
      constructor
      · simpa using hsplit
      · -- every element of fs is a digit: it is a numchar and cannot be a dot
        rw [List.all_eq_true]
        intro x hx
        have hxmem : x ∈ s := by
          rw [hsplit]
          exact List.mem_append_right _ (List.mem_cons_of_mem _ (by simpa using hx))
        have hxnum := hall x hxmem
        simp only [isNumChar, Bool.or_eq_true, decide_eq_true_eq] at hxnum
        rcases hxnum with h1 | h1
        · exact h1
        · exfalso
          subst h1
          have hxfs : ('.' : Char) ∈ fs := by simpa using hx
          have : 2 ≤ s.count '.' := by
            rw [hsplit, List.count_append, List.count_cons_self]
            have h0 : 1 ≤ List.count '.' fs := List.count_pos_iff.mpr hxfs
            omega
          omega
  
end ClaimNumber

section ClaimNumberMain

open Mirrow.Lexer

/-- C6: on input whose current character is a digit, `Lexer::next` runs
`make_number`, which consumes the maximal digit/dot run.  If Rust `f64`
parsing of the run succeeds, the token is `Number` with the parsed value
as payload and the run has the shape `[0-9]+(\.[0-9]*)?`; if it fails, the
token is `Error` with message `"Invalid number: "` followed by the
consumed text. -/
theorem lexer_make_number_spec (c : Char) (cs : List Char) (l : Nat)
    (hd : c.isDigit = true) :
    (∀ q, parseF64 ((c :: cs).takeWhile isNumChar) = some q →
      lexNext (c :: cs, l) = some (⟨TokenKind.Number, TokenValue.Number q, l⟩,
        ((c :: cs).dropWhile isNumChar, l))
      ∧ NumShape ((c :: cs).takeWhile isNumChar))
    ∧ (parseF64 ((c :: cs).takeWhile isNumChar) = none →
      lexNext (c :: cs, l) = some (⟨TokenKind.Error,
        TokenValue.Error ("Invalid number: " ++ ((c :: cs).takeWhile isNumChar).asString),
        l⟩, ((c :: cs).dropWhile isNumChar, l))) := by
  have hdisp := lexNext_digit c cs l hd
  constructor
  · intro q hq
    constructor
    · rw [hdisp]
      unfold makeNumber
      simp only [hq]
    · have hrun : (c :: cs).takeWhile isNumChar = c :: cs.takeWhile isNumChar := by
        simp [List.takeWhile_cons, isNumChar, hd]
      have hcond : (!((c :: cs).takeWhile isNumChar).isEmpty
          && ((c :: cs).takeWhile isNumChar).all isNumChar
          && decide (((c :: cs).takeWhile isNumChar).count '.' ≤ 1)
          && ((c :: cs).takeWhile isNumChar).any Char.isDigit) = true := by
        by_contra hfalse
        rw [Bool.not_eq_true] at hfalse
        rw [parseF64, hfalse] at hq
        exact Option.noConfusion hq
      have h3 : ((c :: cs).takeWhile isNumChar).count '.' ≤ 1 := by
        simp only [Bool.and_eq_true, decide_eq_true_eq] at hcond
        exact hcond.1.2
      exact digit_dot_shape _ c (cs.takeWhile isNumChar) hrun hd
        (fun x hx => List.mem_takeWhile_imp hx) h3
  · intro hq
    rw [hdisp]
    unfold makeNumber
    simp only [hq]

theorem lexer_make_number_spec_witness :
    ('4'.isDigit = true ∧ parseF64 (("42".toList).takeWhile isNumChar) = some 42
      ∧ lexNext ("42".toList, 1) =
          some (⟨TokenKind.Number, TokenValue.Number 42, 1⟩, ([], 1))
      ∧ NumShape (("42".toList).takeWhile isNumChar))
    ∧ ('1'.isDigit = true ∧ parseF64 (("1.2.3".toList).takeWhile isNumChar) = none
      ∧ lexNext ("1.2.3".toList, 1) =
          some (⟨TokenKind.Error, TokenValue.Error "Invalid number: 1.2.3", 1⟩,
            ([], 1))) := by
  have hq1 : parseF64 (("42".toList).takeWhile isNumChar) = some 42 := by
    simp [parseF64, digitsToNat, isNumChar]
  have h1 := (lexer_make_number_spec '4' "2".toList 1 (by decide)).1 42 hq1
  have hq2 : parseF64 (("1.2.3".toList).takeWhile isNumChar) = none := by decide
  have h2 := (lexer_make_number_spec '1' ".2.3".toList 1 (by decide)).2 hq2
  refine ⟨⟨by decide, hq1, ?_, h1.2⟩, by decide, hq2, ?_⟩
  · exact h1.1
  · exact h2.trans (by decide)

end ClaimNumberMain

section ClaimFuncParams

open Mirrow.Parse

theorem identNames_cons (t : Token) (r : List Token) :
    identNames (t :: r) = identOf t ++ identNames r := by
  cases t <;> simp [identNames, identOf]

theorem advanceTok_cons_ne_nil (t : Token) (r : List Token) (n : Nat) (h : r ≠ []) :
    advanceTok (t :: r, n) = ((r, if t = Token.Newline then n + 1 else n), t) := by
  cases r with
  | nil => exact absurd rfl h
  | cons u r' => rfl

theorem advanceTok_fst (t : Token) (r : List Token) (n : Nat) (h : r ≠ []) :
    (advanceTok (t :: r, n)).1 = (r, if t = Token.Newline then n + 1 else n) := by
  rw [advanceTok_cons_ne_nil t r n h]

theorem advanceTok_snd (t : Token) (r : List Token) (n : Nat) (h : r ≠ []) :
    (advanceTok (t :: r, n)).2 = t := by
  rw [advanceTok_cons_ne_nil t r n h]

theorem paramsF_cons_unfold (g : Nat) (acc : List String) (t : Token) (r : List Token)
    (n : Nat) (ht : t ≠ Token.RightParen) (hr : r ≠ []) :
    paramsF (g + 1) acc (t :: r, n) =
      paramsF g (acc ++ identOf t)
        (if currentTok (r, if t = Token.Newline then n + 1 else n) = Token.Comma then
          (advanceTok (r, if t = Token.Newline then n + 1 else n)).1
        else (r, if t = Token.Newline then n + 1 else n)) := by
  rw [show paramsF (g + 1) acc (t :: r, n) =
      (if currentTok (t :: r, n) = Token.RightParen then Except.ok (acc, (t :: r, n))
       else paramsF g (acc ++ identOf (advanceTok (t :: r, n)).2)
        (if currentTok (advanceTok (t :: r, n)).1 = Token.Comma then
          (advanceTok (advanceTok (t :: r, n)).1).1
         else (advanceTok (t :: r, n)).1)) from rfl]
  rw [if_neg (show ¬ (currentTok (t :: r, n) = Token.RightParen) from by
    simpa [currentTok] using ht)]
  rw [advanceTok_fst t r n hr, advanceTok_snd t r n hr]

theorem paramsF_spec (m : Nat) :
    ∀ (ps : List Token), ps.length = m →
    ∀ (g : Nat) (acc : List String) (rest : List Token) (n : Nat),
      Token.RightParen ∉ ps → m ≤ g →
      paramsF (g + 1) acc (ps ++ Token.RightParen :: rest, n) =
        Except.ok (acc ++ identNames ps,
          (Token.RightParen :: rest, n + ps.count Token.Newline)) := by
  induction m using Nat.strong_induction_on with
  | _ m ih =>
    intro ps hm g acc rest n hnp hf
    cases ps with
    | nil =>
        simp [paramsF, currentTok, identNames]
    | cons t ps' =>
        have hts : t ≠ Token.RightParen := fun hcon => hnp (hcon ▸ List.mem_cons_self t ps')
        have hnp' : Token.RightParen ∉ ps' := fun hcon => hnp (List.mem_cons_of_mem _ hcon)
        have hg : ∃ g', g = g' + 1 := ⟨g - 1, by simp at hm; omega⟩
        obtain ⟨g', rfl⟩ := hg
        rw [List.cons_append,
          paramsF_cons_unfold (g' + 1) acc t (ps' ++ Token.RightParen :: rest) n hts (by simp)]
        cases ps' with
        | nil =>
            rw [if_neg (show ¬ (currentTok (([] : List Token) ++ Token.RightParen :: rest,
                if t = Token.Newline then n + 1 else n) = Token.Comma) from by
                  simp [currentTok])]
            rw [show ([] : List Token) ++ Token.RightParen :: rest = Token.RightParen :: rest
              from rfl] at *
            rw [show Token.RightParen :: rest =
              ([] : List Token) ++ Token.RightParen :: rest from rfl]
            rw [ih 0 (by simp at hm; omega) [] rfl g' (acc ++ identOf t) rest
              (if t = Token.Newline then n + 1 else n) (by simp) (by omega)]
            rw [identNames_cons]
            simp only [identNames, List.filterMap_nil, List.append_nil, List.count_nil,
              List.count_cons, List.append_assoc]
            by_cases htn : t = Token.Newline <;> simp [htn]
        | cons u ps'' =>
            have hus : u ≠ Token.RightParen := fun hcon =>
              hnp' (hcon ▸ List.mem_cons_self u ps'')
            have hnp'' : Token.RightParen ∉ ps'' := fun hcon =>
              hnp' (List.mem_cons_of_mem _ hcon)
            have hm'' : ps''.length + 2 = m := by simpa using hm
            by_cases hu : u = Token.Comma
            · subst hu
              rw [if_pos (show currentTok (Token.Comma :: ps'' ++ Token.RightParen :: rest,
                  if t = Token.Newline then n + 1 else n) = Token.Comma from rfl)]
              rw [show (Token.Comma :: ps'') ++ Token.RightParen :: rest =
                Token.Comma :: (ps'' ++ Token.RightParen :: rest) from rfl]
              rw [advanceTok_fst Token.Comma (ps'' ++ Token.RightParen :: rest) _ (by simp)]
              rw [if_neg (show ¬ (Token.Comma = Token.Newline) from by decide)]
              rw [ih ps''.length (by omega) ps'' rfl g' (acc ++ identOf t) rest
                (if t = Token.Newline then n + 1 else n) hnp'' (by omega)]
              rw [identNames_cons, identNames_cons]
              simp only [identOf, List.append_assoc, List.count_cons, List.nil_append]
              by_cases htn : t = Token.Newline <;> simp [htn] <;> omega
            · rw [if_neg (show ¬ (currentTok (u :: ps'' ++ Token.RightParen :: rest,
                  if t = Token.Newline then n + 1 else n) = Token.Comma) from by
                    simpa [currentTok] using hu)]
              rw [show u :: ps'' ++ Token.RightParen :: rest =
                (u :: ps'') ++ Token.RightParen :: rest from rfl]
              rw [ih (u :: ps'').length (by simp only [List.length_cons]; omega)
                (u :: ps'') rfl g' (acc ++ identOf t) rest
                (if t = Token.Newline then n + 1 else n) hnp'
                (by simp only [List.length_cons]; omega)]
              simp only [identNames_cons, List.append_assoc, List.count_cons]
              by_cases htn : t = Token.Newline <;> simp [htn] <;> omega


/-- C9: a `func` declaration whose parameter list contains non-identifier
tokens parses without error: the loop in `Parser::func_statement` silently
drops every non-identifier token, so the resulting `Func` statement
contains exactly the identifier parameters, in order. -/
theorem parser_func_params_skip_non_identifiers (ps : List Token)
    (hnp : Token.RightParen ∉ ps) (hnl : Token.Newline ∉ ps) :
    statementF ((ps.length + 6) + 1)
        ([Token.Func, Token.Identifier "f", Token.LeftParen] ++ ps ++
          [Token.RightParen, Token.LeftBrace, Token.Number 0, Token.RightBrace,
            Token.Eof], 0) =
      Except.ok (Stmt.Func "f" (identNames ps) [Stmt.Expr (Expr.Number 0) 1] 1,
        ([Token.Eof], 0)) := by
  have hc0 : ps.count Token.Newline = 0 := List.count_eq_zero.mpr hnl
  simp only [List.cons_append, List.nil_append]
  simp only [statementF, currentTok, currentLine, List.headD]
  rw [show ps.length + 6 = (ps.length + 5) + 1 from rfl]
  simp +decide only [funcStatementF, advanceTok_fst, advanceTok_snd, expectTok,
    currentTok, Token.tag, List.headD, List.cons_ne_nil, ne_eq, not_false_eq_true,
    if_true, if_false]
  rw [advanceTok_fst Token.LeftParen _ 0 (by simp)]
  simp +decide only [if_true, if_false]
  rw [show ps.length + 5 = (ps.length + 4) + 1 from rfl]
  simp only [bind, Except.bind]
  rw [paramsF_spec ps.length ps rfl (ps.length + 4) [] _ 0 hnp (by omega), hc0]
  simp +decide only [bind, Except.bind, List.nil_append, Nat.add_zero, expectTok,
    currentTok, Token.tag, List.headD, advanceTok_fst, advanceTok_snd,
    List.cons_ne_nil, ne_eq, not_false_eq_true, if_true, if_false]
  rfl

theorem parser_func_params_skip_non_identifiers_witness :
    (Token.RightParen ∉ [Token.Number 1, Token.Comma, Token.Number 2])
    ∧ (Token.Newline ∉ [Token.Number 1, Token.Comma, Token.Number 2])
    ∧ statementF 10
        ([Token.Func, Token.Identifier "f", Token.LeftParen, Token.Number 1, Token.Comma,
          Token.Number 2, Token.RightParen, Token.LeftBrace, Token.Number 0,
          Token.RightBrace, Token.Eof], 0) =
      Except.ok (Stmt.Func "f" [] [Stmt.Expr (Expr.Number 0) 1] 1,
        ([Token.Eof], 0)) :=
  ⟨by decide, by decide,
    parser_func_params_skip_non_identifiers
      [Token.Number 1, Token.Comma, Token.Number 2] (by decide) (by decide)⟩

end ClaimFuncParams

section ClaimAssociativity

open Mirrow.Parse

theorem exprLoop_eof_stuck : ∀ (f : Nat) (left : Expr) (n : Nat),
    exprLoopF f 0 left ([Token.Eof], n) = Except.error fuelMsg := by
  intro f
  induction f with
  | zero => intro left n; rfl
  | succ g ih =>
      intro left n
      cases g with
      | zero => rfl
      | succ h =>
          exact (show exprLoopF (h + 1 + 1) 0 left ([Token.Eof], n)
              = exprLoopF (h + 1) 0 left ([Token.Eof], n) from rfl).trans (ih left n)

theorem update_chain_diverges : ∀ f,
    expressionF f Precedence.Pipeline.asU8
      ([Token.Identifier "a", Token.Update, Token.Identifier "b", Token.Update,
        Token.Identifier "c", Token.Eof], 0) = Except.error fuelMsg := by
  intro f
  match f with
  | 0 => rfl
  | 1 => rfl
  | 2 => rfl
  | 3 => rfl
  | 4 => rfl
  | 5 => rfl
  | 6 => rfl
  | 7 => rfl
  | (k + 8) =>
    have h1 : exprLoopF (k + 1) 0 (Expr.Identifier "c") ([Token.Eof], 0)
        = Except.error fuelMsg := exprLoop_eof_stuck _ _ _
    have h2 : expressionF (k + 2) 0 ([Token.Identifier "c", Token.Eof], 0)
        = Except.error fuelMsg := h1
    have h3 : ledF (k + 3) (Expr.Identifier "b")
        ([Token.Update, Token.Identifier "c", Token.Eof], 0) = Except.error fuelMsg := by
      rw [show ledF (k + 3) (Expr.Identifier "b")
            ([Token.Update, Token.Identifier "c", Token.Eof], 0)
          = Except.bind (expressionF (k + 2) 0 ([Token.Identifier "c", Token.Eof], 0))
              (fun x => Except.ok (Expr.Update (Expr.Identifier "b") x.1, x.2)) from rfl,
        h2]
      rfl
    have h4 : exprLoopF (k + 4) 0 (Expr.Identifier "b")
        ([Token.Update, Token.Identifier "c", Token.Eof], 0) = Except.error fuelMsg := by
      rw [show exprLoopF (k + 4) 0 (Expr.Identifier "b")
            ([Token.Update, Token.Identifier "c", Token.Eof], 0)
          = Except.bind (ledF (k + 3) (Expr.Identifier "b")
              ([Token.Update, Token.Identifier "c", Token.Eof], 0))
              (fun x => exprLoopF (k + 3) 0 x.1 x.2) from rfl, h3]
      rfl
    have h5 : expressionF (k + 5) 0
        ([Token.Identifier "b", Token.Update, Token.Identifier "c", Token.Eof], 0)
        = Except.error fuelMsg := h4
    have h6 : ledF (k + 6) (Expr.Identifier "a")
        ([Token.Update, Token.Identifier "b", Token.Update, Token.Identifier "c",
          Token.Eof], 0) = Except.error fuelMsg := by
      rw [show ledF (k + 6) (Expr.Identifier "a")
            ([Token.Update, Token.Identifier "b", Token.Update, Token.Identifier "c",
              Token.Eof], 0)
          = Except.bind (expressionF (k + 5) 0
              ([Token.Identifier "b", Token.Update, Token.Identifier "c", Token.Eof], 0))
              (fun x => Except.ok (Expr.Update (Expr.Identifier "a") x.1, x.2)) from rfl,
        h5]
      rfl
    have h7 : exprLoopF (k + 7) 1 (Expr.Identifier "a")
        ([Token.Update, Token.Identifier "b", Token.Update, Token.Identifier "c",
          Token.Eof], 0) = Except.error fuelMsg := by
      rw [show exprLoopF (k + 7) 1 (Expr.Identifier "a")
            ([Token.Update, Token.Identifier "b", Token.Update, Token.Identifier "c",
              Token.Eof], 0)
          = Except.bind (ledF (k + 6) (Expr.Identifier "a")
              ([Token.Update, Token.Identifier "b", Token.Update, Token.Identifier "c",
                Token.Eof], 0))
              (fun x => exprLoopF (k + 6) 1 x.1 x.2) from rfl, h6]
      rfl
    exact h7

/-- C4: the claim says binary operators are left-associative (`a - b - c`
groups as `(a - b) - c`) and `<-` is right-associative via same-precedence
RHS parsing.  In `Parser::led` the call `self.precedence(true)` happens
*after* `self.advance()`, so it reads the precedence of the first token of
the right-hand side (`Lowest` for a literal or identifier), not of the
operator.  Consequently `a - b - c` parses right-grouped as
`a - (b - c)`, and `a <- b <- c` does not terminate at all: its inner
`expression(0)` loop reaches `Eof`, whose `led` is the non-consuming
default arm, so no amount of fuel produces a result. -/
theorem parser_infix_grouping_bug :
    expressionF 20 Precedence.Pipeline.asU8
        ([Token.Identifier "a", Token.Minus, Token.Identifier "b", Token.Minus,
          Token.Identifier "c", Token.Eof], 0) =
      Except.ok (Expr.Binary (Expr.Identifier "a") BinaryOp.Sub
        (Expr.Binary (Expr.Identifier "b") BinaryOp.Sub (Expr.Identifier "c")),
        ([Token.Eof], 0))
    ∧ (∀ f, expressionF f Precedence.Pipeline.asU8
        ([Token.Identifier "a", Token.Update, Token.Identifier "b", Token.Update,
          Token.Identifier "c", Token.Eof], 0) = Except.error fuelMsg) :=
  ⟨rfl, update_chain_diverges⟩

end ClaimAssociativity

section ClaimParens

open Mirrow.Parse

theorem ParenRel.mk' (s : List Token) (n : Nat) :
    ParenRel (s ++ [Token.Eof], n) (s ++ [Token.RightParen, Token.Eof], n) :=
  ⟨s, n, rfl, rfl⟩

theorem expr_eof_ne_ok : ∀ (g min n : Nat) (r : Expr × PSt),
    expressionF g min ([Token.Eof], n) ≠ Except.ok r := by
  intro g min n r h
  match g with
  | 0 => exact Except.noConfusion h
  | 1 => exact Except.noConfusion h
  | g + 2 => exact Except.noConfusion h

theorem prec_rel (b : Bool) (σ τ : PSt) (h : ParenRel σ τ) :
    precedenceTok b σ = precedenceTok b τ := by
  obtain ⟨s, n, rfl, rfl⟩ := h
  cases s with
  | nil => rfl
  | cons t s' => rfl

theorem binop_rel (σ τ : PSt) (h : ParenRel σ τ) :
    binaryOpTok σ = binaryOpTok τ := by
  obtain ⟨s, n, rfl, rfl⟩ := h
  cases s with
  | nil => rfl
  | cons t s' => rfl

theorem current_eq_rel (X : Token) (hX1 : X ≠ Token.Eof) (hX2 : X ≠ Token.RightParen)
    (σ τ : PSt) (h : ParenRel σ τ) :
    (currentTok σ = X) = (currentTok τ = X) := by
  obtain ⟨s, n, rfl, rfl⟩ := h
  cases s with
  | nil =>
      show (Token.Eof = X) = (Token.RightParen = X)
      simp only [eq_iff_iff]
      constructor
      · intro hcon; exact absurd hcon.symm hX1
      · intro hcon; exact absurd hcon.symm hX2
  | cons t s' => rfl

theorem expect_rel (X : Token) (hX : X.tag ≠ Token.Eof.tag) (σ τ σ' : PSt)
    (h : ParenRel σ τ) (hok : expectTok X σ = Except.ok σ') :
    ∃ τ', expectTok X τ = Except.ok τ' ∧ ParenRel σ' τ' := by
  obtain ⟨s, n, rfl, rfl⟩ := h
  cases s with
  | nil =>
      exfalso
      rw [expectTok] at hok
      rw [if_neg (show ¬ ((currentTok ([] ++ [Token.Eof], n)).tag = X.tag) from
        fun hc => hX hc.symm)] at hok
      exact Except.noConfusion hok
  | cons t s' =>
      rw [expectTok] at hok ⊢
      simp only [List.cons_append] at hok ⊢
      by_cases htag : (Token.tag t) = X.tag
      · rw [if_pos (show (currentTok (t :: (s' ++ [Token.Eof]), n)).tag = X.tag from htag)]
          at hok
        rw [if_pos (show (currentTok (t :: (s' ++ [Token.RightParen, Token.Eof]), n)).tag
          = X.tag from htag)]
        rw [advanceTok_fst t (s' ++ [Token.Eof]) n (by simp)] at hok
        rw [advanceTok_fst t (s' ++ [Token.RightParen, Token.Eof]) n (by simp)]
        have hs : σ' = (s' ++ [Token.Eof], if t = Token.Newline then n + 1 else n) :=
          (Except.ok.inj hok).symm
        subst hs
        exact ⟨_, rfl, ParenRel.mk' s' (if t = Token.Newline then n + 1 else n)⟩
      · rw [if_neg (show ¬ ((currentTok (t :: (s' ++ [Token.Eof]), n)).tag = X.tag) from
          htag)] at hok
        exact absurd hok (fun hc => Except.noConfusion hc)

end ClaimParens

section ClaimParensDispatch

open Mirrow.Parse

namespace Mirrow.Parse

/-- The token dispatch of `Parser::nud`, abstracted over the already
consumed token; `nudCase f t st'` is definitionally what `nudF (f+1)`
computes once `advance` has returned token `t` and successor state `st'`
(see `nudF_cons`). -/
def nudCase (f : Nat) (t : Token) (st' : PSt) : Except String (Expr × PSt) :=
  match t with
  | .Identifier s => Except.ok (Expr.Identifier s, st')
  | .Number n => Except.ok (Expr.Number n, st')
  | .String s => Except.ok (Expr.String s, st')
  | .LeftParen => do
      let (e, st2) ← expressionF f Precedence.Pipeline.asU8 st'
      let st3 ← expectTok Token.RightParen st2
      Except.ok (e, st3)
  | .Minus => do
      let (r, st2) ← expressionF f Precedence.Unary.asU8 st'
      Except.ok (Expr.Unary UnaryOp.Neg r, st2)
  | .Not => do
      let (r, st2) ← expressionF f Precedence.Unary.asU8 st'
      Except.ok (Expr.Unary UnaryOp.Not r, st2)
  | .LeftBracket =>
      if currentTok st' = Token.RightBracket then
        Except.ok (Expr.Array [], (advanceTok st').1)
      else do
        let (elems, st2) ← arrElemsF f [] st'
        let st3 ← expectTok Token.RightBracket st2
        Except.ok (Expr.Array elems, st3)
  | .True => Except.ok (Expr.Boolean true, st')
  | .False => Except.ok (Expr.Boolean false, st')
  | _ => Except.error ("Unexpected token in nud at line " ++ toString (currentLine st'))

/-- The token dispatch of `Parser::led`, abstracted over the current
token; `ledCase f left t st` is definitionally what `ledF (f+1)` computes
when the current token is `t` (see `ledF_succ`). -/
def ledCase (f : Nat) (left : Expr) (t : Token) (st : PSt) : Except String (Expr × PSt) :=
  match t with
  | .Plus | .Minus | .Multiply | .Divide | .Equal | .NotEqual
  | .Less | .Greater | .LessEqual | .GreaterEqual => do
      let op ← binaryOpTok st
      let st := (advanceTok st).1
      let p ← precedenceTok true st
      let (right, st) ← expressionF f (p + 1) st
      Except.ok (Expr.Binary left op right, st)
  | .LeftParen => do
      let st := (advanceTok st).1
      let (args, st) ← callArgsF f [] st
      let st ← expectTok Token.RightParen st
      Except.ok (Expr.Call left args, st)
  | .Pipeline => do
      let st := (advanceTok st).1
      let p ← precedenceTok true st
      let (right, st) ← expressionF f (p + 1) st
      Except.ok (Expr.Pipeline left right, st)
  | .Update => do
      let st := (advanceTok st).1
      let p ← precedenceTok true st
      let (right, st) ← expressionF f p st
      Except.ok (Expr.Update left right, st)
  | _ => Except.ok (left, st)

/-- The continuation of the array-element loop of `Parser::nud` after one
element has been parsed (see `arrElemsF_succ`). -/
def arrTail (f : Nat) (acc : List Expr) (st : PSt) : Except String (List Expr × PSt) :=
  match currentTok st with
  | .Comma =>
      let st := (advanceTok st).1
      if currentTok st = Token.RightBracket then Except.ok (acc, st)
      else arrElemsF f acc st
  | .RightBracket => Except.ok (acc, st)
  | _ =>
      Except.error ("Expected comma or bracket in array literal at line "
        ++ toString (currentLine st))

end Mirrow.Parse

theorem nudF_cons (g : Nat) (t : Token) (r : List Token) (n : Nat) (hr : r ≠ []) :
    nudF (g + 1) (t :: r, n) =
      nudCase g t (r, if t = Token.Newline then n + 1 else n) := by
  cases r with
  | nil => exact absurd rfl hr
  | cons u r' => rfl

theorem nudF_eof (g : Nat) (n : Nat) (e : Expr) (σ' : PSt) :
    nudF g ([Token.Eof], n) ≠ Except.ok (e, σ') := by
  intro h
  match g with
  | 0 => exact Except.noConfusion h
  | g + 1 => exact Except.noConfusion h

theorem ledF_succ (g : Nat) (left : Expr) (st : PSt) :
    ledF (g + 1) left st = ledCase g left (currentTok st) st := rfl

theorem arrElemsF_succ (g : Nat) (acc : List Expr) (st : PSt) :
    arrElemsF (g + 1) acc st =
      Except.bind (expressionF g Precedence.Pipeline.asU8 st)
        (fun x => arrTail g (acc ++ [x.1]) x.2) := rfl

theorem callArgsF_succ (g : Nat) (acc : List Expr) (st : PSt) :
    callArgsF (g + 1) acc st =
      if currentTok st = Token.RightParen then Except.ok (acc, st)
      else
        Except.bind (expressionF g Precedence.Pipeline.asU8 st)
          (fun x => callArgsF g (acc ++ [x.1])
            (if currentTok x.2 = Token.Comma then (advanceTok x.2).1 else x.2)) := rfl

theorem expressionF_succ (g min : Nat) (st : PSt) :
    expressionF (g + 1) min st =
      Except.bind (nudF g st) (fun x => exprLoopF g min x.1 x.2) := rfl

theorem exprLoopF_succ (g min : Nat) (left : Expr) (st : PSt) :
    exprLoopF (g + 1) min left st =
      Except.bind (precedenceTok false st)
        (fun p => if min ≤ p then
            Except.bind (ledF g left st) (fun x => exprLoopF g min x.1 x.2)
          else Except.ok (left, st)) := rfl

end ClaimParensDispatch

section ClaimParensSim

open Mirrow.Parse

theorem nudCase_minus (f : Nat) (st : PSt) :
    nudCase f Token.Minus st =
      Except.bind (expressionF f Precedence.Unary.asU8 st)
        (fun x => Except.ok (Expr.Unary UnaryOp.Neg x.1, x.2)) := rfl

theorem nudCase_not (f : Nat) (st : PSt) :
    nudCase f Token.Not st =
      Except.bind (expressionF f Precedence.Unary.asU8 st)
        (fun x => Except.ok (Expr.Unary UnaryOp.Not x.1, x.2)) := rfl

theorem nudCase_lparen (f : Nat) (st : PSt) :
    nudCase f Token.LeftParen st =
      Except.bind (expressionF f Precedence.Pipeline.asU8 st)
        (fun x => Except.bind (expectTok Token.RightParen x.2)
          (fun st3 => Except.ok (x.1, st3))) := rfl

theorem nudCase_lbracket (f : Nat) (st : PSt) :
    nudCase f Token.LeftBracket st =
      (if currentTok st = Token.RightBracket then
        Except.ok (Expr.Array [], (advanceTok st).1)
      else
        Except.bind (arrElemsF f [] st)
          (fun x => Except.bind (expectTok Token.RightBracket x.2)
            (fun st3 => Except.ok (Expr.Array x.1, st3)))) := rfl

theorem arrTail_comma (f : Nat) (acc : List Expr) (r : List Token) (n : Nat)
    (hr : r ≠ []) :
    arrTail f acc (Token.Comma :: r, n) =
      (if currentTok (r, n) = Token.RightBracket then Except.ok (acc, (r, n))
       else arrElemsF f acc (r, n)) := by
  cases r with
  | nil => exact absurd rfl hr
  | cons u r' => rfl

theorem ledCase_lparen (f : Nat) (left : Expr) (st : PSt) :
    ledCase f left Token.LeftParen st =
      Except.bind (callArgsF f [] (advanceTok st).1)
        (fun x => Except.bind (expectTok Token.RightParen x.2)
          (fun st2 => Except.ok (Expr.Call left x.1, st2))) := rfl

theorem ledCase_pipeline (f : Nat) (left : Expr) (st : PSt) :
    ledCase f left Token.Pipeline st =
      Except.bind (precedenceTok true (advanceTok st).1)
        (fun p => Except.bind (expressionF f (p + 1) (advanceTok st).1)
          (fun x => Except.ok (Expr.Pipeline left x.1, x.2))) := rfl

theorem ledCase_update (f : Nat) (left : Expr) (st : PSt) :
    ledCase f left Token.Update st =
      Except.bind (precedenceTok true (advanceTok st).1)
        (fun p => Except.bind (expressionF f p (advanceTok st).1)
          (fun x => Except.ok (Expr.Update left x.1, x.2))) := rfl

theorem simAll : ∀ f,
    (∀ min σ τ e σ', ParenRel σ τ → expressionF f min σ = Except.ok (e, σ') →
      ∃ τ', expressionF f min τ = Except.ok (e, τ') ∧ ParenRel σ' τ')
    ∧ (∀ min left σ τ e σ', ParenRel σ τ → exprLoopF f min left σ = Except.ok (e, σ') →
      ∃ τ', exprLoopF f min left τ = Except.ok (e, τ') ∧ ParenRel σ' τ')
    ∧ (∀ σ τ e σ', ParenRel σ τ → nudF f σ = Except.ok (e, σ') →
      ∃ τ', nudF f τ = Except.ok (e, τ') ∧ ParenRel σ' τ')
    ∧ (∀ left σ τ e σ', ParenRel σ τ → ledF f left σ = Except.ok (e, σ') →
      ∃ τ', ledF f left τ = Except.ok (e, τ') ∧ ParenRel σ' τ')
    ∧ (∀ acc σ τ es σ', ParenRel σ τ → arrElemsF f acc σ = Except.ok (es, σ') →
      ∃ τ', arrElemsF f acc τ = Except.ok (es, τ') ∧ ParenRel σ' τ')
    ∧ (∀ acc σ τ es σ', ParenRel σ τ → callArgsF f acc σ = Except.ok (es, σ') →
      ∃ τ', callArgsF f acc τ = Except.ok (es, τ') ∧ ParenRel σ' τ') := by
  intro f
  induction f with
  | zero =>
      exact ⟨fun _ _ _ _ _ _ h => Except.noConfusion h,
        fun _ _ _ _ _ _ _ h => Except.noConfusion h,
        fun _ _ _ _ _ h => Except.noConfusion h,
        fun _ _ _ _ _ _ h => Except.noConfusion h,
        fun _ _ _ _ _ _ h => Except.noConfusion h,
        fun _ _ _ _ _ _ h => Except.noConfusion h⟩
  | succ g ih =>
      obtain ⟨ihE, ihL, ihN, ihD, ihA, ihC⟩ := ih
      refine ⟨?_, ?_, ?_, ?_, ?_, ?_⟩
      -- expression
      · intro min σ τ e σ' hrel h
        rw [expressionF_succ] at h ⊢
        cases hn : nudF g σ with
        | error m => rw [hn] at h; exact Except.noConfusion h
        | ok v =>
            rw [hn] at h
            simp only [Except.bind] at h
            obtain ⟨τ1, hnτ, hrel1⟩ := ihN σ τ v.1 v.2 hrel hn
            rw [hnτ]
            simp only [Except.bind]
            exact ihL min v.1 v.2 τ1 e σ' hrel1 h
      -- exprLoop
      · intro min left σ τ e σ' hrel h
        rw [exprLoopF_succ] at h ⊢
        rw [← prec_rel false σ τ hrel]
        cases hp : precedenceTok false σ with
        | error m => rw [hp] at h; exact Except.noConfusion h
        | ok p =>
            rw [hp] at h
            simp only [Except.bind] at h ⊢
            by_cases hmin : min ≤ p
            · rw [if_pos hmin] at h ⊢
              cases hl : ledF g left σ with
              | error m => rw [hl] at h; exact Except.noConfusion h
              | ok w =>
                  rw [hl] at h
                  simp only [Except.bind] at h
                  obtain ⟨τ1, hlτ, hrel1⟩ := ihD left σ τ w.1 w.2 hrel hl
                  rw [hlτ]
                  simp only [Except.bind]
                  exact ihL min w.1 w.2 τ1 e σ' hrel1 h
            · rw [if_neg hmin] at h ⊢
              obtain ⟨rfl, rfl⟩ := Prod.mk.inj (Except.ok.inj h)
              exact ⟨τ, rfl, hrel⟩
      -- nud
      · intro σ τ e σ' hrel h
        obtain ⟨s, n, rfl, rfl⟩ := hrel
        cases s with
        | nil => exact absurd h (nudF_eof (g + 1) n e σ')
        | cons t s' =>
            simp only [List.cons_append] at h ⊢
            rw [nudF_cons g t (s' ++ [Token.Eof]) n (by simp)] at h
            rw [nudF_cons g t (s' ++ [Token.RightParen, Token.Eof]) n (by simp)]
            obtain ⟨n', hn'⟩ : ∃ m, m = (if t = Token.Newline then n + 1 else n) :=
              ⟨_, rfl⟩
            rw [← hn'] at h ⊢
            have hrel' : ParenRel (s' ++ [Token.Eof], n')
                (s' ++ [Token.RightParen, Token.Eof], n') := ParenRel.mk' s' n'
            cases t
            case Minus =>
              rw [nudCase_minus] at h ⊢
              cases hex : expressionF g Precedence.Unary.asU8 (s' ++ [Token.Eof], n') with
              | error m => rw [hex] at h; exact Except.noConfusion h
              | ok v =>
                  obtain ⟨r1, v2⟩ := v
                  rw [hex] at h
                  simp only [Except.bind] at h
                  obtain ⟨rfl, rfl⟩ := Prod.mk.inj (Except.ok.inj h)
                  obtain ⟨τ1, hexτ, hrel1⟩ := ihE Precedence.Unary.asU8 _ _ r1 v2 hrel' hex
                  rw [hexτ]
                  simp only [Except.bind]
                  exact ⟨τ1, rfl, hrel1⟩
            case Not =>
              rw [nudCase_not] at h ⊢
              cases hex : expressionF g Precedence.Unary.asU8 (s' ++ [Token.Eof], n') with
              | error m => rw [hex] at h; exact Except.noConfusion h
              | ok v =>
                  obtain ⟨r1, v2⟩ := v
                  rw [hex] at h
                  simp only [Except.bind] at h
                  obtain ⟨rfl, rfl⟩ := Prod.mk.inj (Except.ok.inj h)
                  obtain ⟨τ1, hexτ, hrel1⟩ := ihE Precedence.Unary.asU8 _ _ r1 v2 hrel' hex
                  rw [hexτ]
                  simp only [Except.bind]
                  exact ⟨τ1, rfl, hrel1⟩
            case LeftParen =>
              rw [nudCase_lparen] at h ⊢
              cases hex : expressionF g Precedence.Pipeline.asU8 (s' ++ [Token.Eof], n') with
              | error m => rw [hex] at h; exact Except.noConfusion h
              | ok v =>
                  obtain ⟨r1, v2⟩ := v
                  rw [hex] at h
                  simp only [Except.bind] at h
                  cases hxp : expectTok Token.RightParen v2 with
                  | error m => rw [hxp] at h; exact Except.noConfusion h
                  | ok st3 =>
                      rw [hxp] at h
                      simp only [Except.bind] at h
                      obtain ⟨rfl, rfl⟩ := Prod.mk.inj (Except.ok.inj h)
                      obtain ⟨τ1, hexτ, hrel1⟩ :=
                        ihE Precedence.Pipeline.asU8 _ _ r1 v2 hrel' hex
                      obtain ⟨τ3, hxpτ, hrel3⟩ :=
                        expect_rel Token.RightParen (by decide) v2 τ1 st3 hrel1 hxp
                      rw [hexτ]
                      simp only [Except.bind]
                      rw [hxpτ]
                      exact ⟨τ3, rfl, hrel3⟩
            case LeftBracket =>
              rw [nudCase_lbracket] at h ⊢
              have hceq := current_eq_rel Token.RightBracket
                (fun hc => Token.noConfusion hc) (fun hc => Token.noConfusion hc)
                _ _ hrel'
              by_cases hrb : currentTok (s' ++ [Token.Eof], n') = Token.RightBracket
              · rw [if_pos hrb] at h
                rw [if_pos (hceq ▸ hrb)]
                cases s' with
                | nil => exact absurd hrb (fun hc => Token.noConfusion hc)
                | cons u s'' =>
                    simp only [List.cons_append] at hrb h ⊢
                    have hu : u = Token.RightBracket := hrb
                    subst hu
                    rw [advanceTok_fst _ (s'' ++ [Token.Eof]) _ (by simp)] at h
                    rw [advanceTok_fst _ (s'' ++ [Token.RightParen, Token.Eof]) _ (by simp)]
                    obtain ⟨rfl, rfl⟩ := Prod.mk.inj (Except.ok.inj h)
                    exact ⟨_, rfl, ParenRel.mk' s'' _⟩
              · rw [if_neg hrb] at h
                rw [if_neg (show ¬ currentTok (s' ++ [Token.RightParen, Token.Eof], n')
                    = Token.RightBracket from fun hc => hrb (hceq.symm ▸ hc))]
                cases hae : arrElemsF g [] (s' ++ [Token.Eof], n') with
                | error m => rw [hae] at h; exact Except.noConfusion h
                | ok w =>
                    obtain ⟨es1, w2⟩ := w
                    rw [hae] at h
                    simp only [Except.bind] at h
                    cases hxb : expectTok Token.RightBracket w2 with
                    | error m => rw [hxb] at h; exact Except.noConfusion h
                    | ok st3 =>
                        rw [hxb] at h
                        simp only [Except.bind] at h
                        obtain ⟨rfl, rfl⟩ := Prod.mk.inj (Except.ok.inj h)
                        obtain ⟨τ1, haeτ, hrel1⟩ := ihA [] _ _ es1 w2 hrel' hae
                        obtain ⟨τ3, hxbτ, hrel3⟩ :=
                          expect_rel Token.RightBracket (by decide) w2 τ1 st3 hrel1 hxb
                        rw [haeτ]
                        simp only [Except.bind]
                        rw [hxbτ]
                        exact ⟨τ3, rfl, hrel3⟩
            all_goals first
              | (obtain ⟨rfl, rfl⟩ := Prod.mk.inj (Except.ok.inj h);
                 exact ⟨_, rfl, hrel'⟩)
              | exact absurd h (fun hc => Except.noConfusion hc)
      -- led
      · intro left σ τ e σ' hrel h
        obtain ⟨s, n, rfl, rfl⟩ := hrel
        cases s with
        | nil =>
            replace h : Except.ok (left, (([] : List Token) ++ [Token.Eof], n))
                = Except.ok (e, σ') := h
            obtain ⟨rfl, rfl⟩ := Prod.mk.inj (Except.ok.inj h)
            exact ⟨_, rfl, ParenRel.mk' [] n⟩
        | cons t s' =>
            rw [ledF_succ] at h ⊢
            simp only [List.cons_append] at h ⊢
            rw [show currentTok (t :: (s' ++ [Token.Eof]), n) = t from rfl] at h
            rw [show currentTok (t :: (s' ++ [Token.RightParen, Token.Eof]), n)
                = t from rfl]
            obtain ⟨m, hm⟩ : ∃ m, m = (if t = Token.Newline then n + 1 else n) :=
              ⟨_, rfl⟩
            obtain ⟨σf, hσf⟩ : ∃ x, x = ((t :: (s' ++ [Token.Eof]), n) : PSt) :=
              ⟨_, rfl⟩
            obtain ⟨τf, hτf⟩ :
                ∃ x, x = ((t :: (s' ++ [Token.RightParen, Token.Eof]), n) : PSt) :=
              ⟨_, rfl⟩
            have hadv1 : (advanceTok σf).1 = (s' ++ [Token.Eof], m) := by
              rw [hσf, advanceTok_fst t (s' ++ [Token.Eof]) n (by simp), hm]
            have hadv2 : (advanceTok τf).1 = (s' ++ [Token.RightParen, Token.Eof], m) := by
              rw [hτf, advanceTok_fst t (s' ++ [Token.RightParen, Token.Eof]) n (by simp),
                hm]
            have hrel' : ParenRel (s' ++ [Token.Eof], m)
                (s' ++ [Token.RightParen, Token.Eof], m) := ParenRel.mk' s' m
            have hrelFull : ParenRel σf τf := by
              rw [hσf, hτf]; exact ⟨t :: s', n, rfl, rfl⟩
            rw [← hσf] at h
            rw [← hτf]
            cases t
            case LeftParen =>
              rw [ledCase_lparen] at h ⊢
              rw [hadv1] at h
              rw [hadv2]
              cases hca : callArgsF g [] (s' ++ [Token.Eof], m) with
              | error m2 => rw [hca] at h; exact Except.noConfusion h
              | ok w =>
                  obtain ⟨args1, w2⟩ := w
                  rw [hca] at h
                  simp only [Except.bind] at h
                  cases hxp : expectTok Token.RightParen w2 with
                  | error m2 => rw [hxp] at h; exact Except.noConfusion h
                  | ok st3 =>
                      rw [hxp] at h
                      simp only [Except.bind] at h
                      obtain ⟨rfl, rfl⟩ := Prod.mk.inj (Except.ok.inj h)
                      obtain ⟨τ1, hcaτ, hrel1⟩ := ihC [] _ _ args1 w2 hrel' hca
                      obtain ⟨τ3, hxpτ, hrel3⟩ :=
                        expect_rel Token.RightParen (by decide) w2 τ1 st3 hrel1 hxp
                      rw [hcaτ]
                      simp only [Except.bind]
                      rw [hxpτ]
                      exact ⟨τ3, rfl, hrel3⟩
            case Pipeline =>
              rw [ledCase_pipeline] at h ⊢
              rw [hadv1] at h
              rw [hadv2]
              rw [← prec_rel true _ _ hrel']
              cases hp : precedenceTok true (s' ++ [Token.Eof], m) with
              | error m2 => rw [hp] at h; exact Except.noConfusion h
              | ok p =>
                  rw [hp] at h
                  simp only [Except.bind] at h ⊢
                  cases hex : expressionF g (p + 1) (s' ++ [Token.Eof], m) with
                  | error m2 => rw [hex] at h; exact Except.noConfusion h
                  | ok v =>
                      obtain ⟨r1, v2⟩ := v
                      rw [hex] at h
                      simp only [Except.bind] at h
                      obtain ⟨rfl, rfl⟩ := Prod.mk.inj (Except.ok.inj h)
                      obtain ⟨τ1, hexτ, hrel1⟩ := ihE (p + 1) _ _ r1 v2 hrel' hex
                      rw [hexτ]
                      simp only [Except.bind]
                      exact ⟨τ1, rfl, hrel1⟩
            case Update =>
              rw [ledCase_update] at h ⊢
              rw [hadv1] at h
              rw [hadv2]
              rw [← prec_rel true _ _ hrel']
              cases hp : precedenceTok true (s' ++ [Token.Eof], m) with
              | error m2 => rw [hp] at h; exact Except.noConfusion h
              | ok p =>
                  rw [hp] at h
                  simp only [Except.bind] at h ⊢
                  cases hex : expressionF g p (s' ++ [Token.Eof], m) with
                  | error m2 => rw [hex] at h; exact Except.noConfusion h
                  | ok v =>
                      obtain ⟨r1, v2⟩ := v
                      rw [hex] at h
                      simp only [Except.bind] at h
                      obtain ⟨rfl, rfl⟩ := Prod.mk.inj (Except.ok.inj h)
                      obtain ⟨τ1, hexτ, hrel1⟩ := ihE p _ _ r1 v2 hrel' hex
                      rw [hexτ]
                      simp only [Except.bind]
                      exact ⟨τ1, rfl, hrel1⟩
            all_goals first
              | -- the ten binary-operator arms share one argument
                (replace h : Except.bind (binaryOpTok σf)
                    (fun op => Except.bind (precedenceTok true (advanceTok σf).1)
                      (fun p => Except.bind (expressionF g (p + 1) (advanceTok σf).1)
                        (fun x => Except.ok (Expr.Binary left op x.1, x.2))))
                    = Except.ok (e, σ') := h
                 rw [hadv1] at h
                 cases hbo : binaryOpTok σf with
                 | error m2 => rw [hbo] at h; exact Except.noConfusion h
                 | ok op =>
                     rw [hbo] at h
                     simp only [Except.bind] at h
                     cases hp : precedenceTok true (s' ++ [Token.Eof], m) with
                     | error m2 => rw [hp] at h; exact Except.noConfusion h
                     | ok p =>
                         rw [hp] at h
                         simp only [Except.bind] at h
                         cases hex : expressionF g (p + 1) (s' ++ [Token.Eof], m) with
                         | error m2 => rw [hex] at h; exact Except.noConfusion h
                         | ok v =>
                             obtain ⟨r1, v2⟩ := v
                             rw [hex] at h
                             simp only [Except.bind] at h
                             obtain ⟨rfl, rfl⟩ := Prod.mk.inj (Except.ok.inj h)
                             obtain ⟨τ1, hexτ, hrel1⟩ := ihE (p + 1) _ _ r1 v2 hrel' hex
                             refine ⟨τ1, ?_, hrel1⟩
                             show Except.bind (binaryOpTok τf)
                                 (fun op2 => Except.bind
                                   (precedenceTok true (advanceTok τf).1)
                                   (fun p2 => Except.bind
                                     (expressionF g (p2 + 1) (advanceTok τf).1)
                                     (fun x => Except.ok (Expr.Binary left op2 x.1, x.2))))
                               = Except.ok (Expr.Binary left op r1, τ1)
                             rw [hadv2]
                             rw [show binaryOpTok τf = Except.ok op from
                               (binop_rel σf τf hrelFull) ▸ hbo]
                             simp only [Except.bind]
                             rw [show precedenceTok true
                                 (s' ++ [Token.RightParen, Token.Eof], m)
                                 = Except.ok p from (prec_rel true _ _ hrel') ▸ hp]
                             simp only [Except.bind]
                             rw [hexτ])
              | -- default arms: the led loop leaves the state unchanged
                (obtain ⟨rfl, rfl⟩ := Prod.mk.inj (Except.ok.inj h);
                 exact ⟨_, rfl, hrelFull⟩)
      -- arrElems
      · intro acc σ τ es σ' hrel h
        rw [arrElemsF_succ] at h ⊢
        cases hex : expressionF g Precedence.Pipeline.asU8 σ with
        | error m => rw [hex] at h; exact Except.noConfusion h
        | ok v =>
            obtain ⟨e1, v2⟩ := v
            rw [hex] at h
            simp only [Except.bind] at h
            obtain ⟨τ1, hexτ, hrel1⟩ := ihE Precedence.Pipeline.asU8 σ τ e1 v2 hrel hex
            rw [hexτ]
            simp only [Except.bind]
            obtain ⟨s2, n2, rfl, rfl⟩ := hrel1
            cases s2 with
            | nil => exact Except.noConfusion h
            | cons u s2' =>
                simp only [List.cons_append] at h ⊢
                by_cases hcm : u = Token.Comma
                · subst hcm
                  rw [arrTail_comma g (acc ++ [e1]) (s2' ++ [Token.Eof]) n2
                    (by simp)] at h
                  rw [arrTail_comma g (acc ++ [e1])
                    (s2' ++ [Token.RightParen, Token.Eof]) n2 (by simp)]
                  have hceq := current_eq_rel Token.RightBracket
                    (fun hc => Token.noConfusion hc) (fun hc => Token.noConfusion hc)
                    (s2' ++ [Token.Eof], n2) (s2' ++ [Token.RightParen, Token.Eof], n2)
                    (ParenRel.mk' s2' n2)
                  by_cases hrb : currentTok (s2' ++ [Token.Eof], n2) = Token.RightBracket
                  · rw [if_pos hrb] at h
                    rw [if_pos (hceq ▸ hrb)]
                    obtain ⟨rfl, rfl⟩ := Prod.mk.inj (Except.ok.inj h)
                    exact ⟨_, rfl, ParenRel.mk' s2' n2⟩
                  · rw [if_neg hrb] at h
                    rw [if_neg (show ¬ currentTok
                        (s2' ++ [Token.RightParen, Token.Eof], n2) = Token.RightBracket
                        from fun hc => hrb (hceq.symm ▸ hc))]
                    exact ihA (acc ++ [e1]) _ _ es σ' (ParenRel.mk' s2' n2) h
                · by_cases hrb2 : u = Token.RightBracket
                  · subst hrb2
                    replace h : Except.ok ((acc ++ [e1] : List Expr),
                        ((Token.RightBracket :: (s2' ++ [Token.Eof]) : List Token), n2))
                        = Except.ok (es, σ') := h
                    obtain ⟨rfl, rfl⟩ := Prod.mk.inj (Except.ok.inj h)
                    exact ⟨_, rfl, ⟨Token.RightBracket :: s2', n2, rfl, rfl⟩⟩
                  · exfalso
                    cases u <;> first
                      | exact hcm rfl
                      | exact hrb2 rfl
                      | exact Except.noConfusion h
      -- callArgs
      · intro acc σ τ es σ' hrel h
        rw [callArgsF_succ] at h ⊢
        obtain ⟨s, n, rfl, rfl⟩ := hrel
        cases s with
        | nil =>
            rw [if_neg (show ¬ (currentTok (([] : List Token) ++ [Token.Eof], n)
                = Token.RightParen) from fun hc => Token.noConfusion hc)] at h
            exfalso
            cases hex : expressionF g Precedence.Pipeline.asU8
                (([] : List Token) ++ [Token.Eof], n) with
            | error m => rw [hex] at h; exact Except.noConfusion h
            | ok v => exact expr_eof_ne_ok g _ n v hex
        | cons t s' =>
            simp only [List.cons_append] at h ⊢
            by_cases hrp : t = Token.RightParen
            · subst hrp
              rw [if_pos (show currentTok (Token.RightParen :: (s' ++ [Token.Eof]), n)
                  = Token.RightParen from rfl)] at h
              rw [if_pos (show currentTok
                  (Token.RightParen :: (s' ++ [Token.RightParen, Token.Eof]), n)
                  = Token.RightParen from rfl)]
              obtain ⟨rfl, rfl⟩ := Prod.mk.inj (Except.ok.inj h)
              exact ⟨_, rfl, ⟨Token.RightParen :: s', n, rfl, rfl⟩⟩
            · rw [if_neg (show ¬ (currentTok (t :: (s' ++ [Token.Eof]), n)
                  = Token.RightParen) from hrp)] at h
              rw [if_neg (show ¬ (currentTok (t :: (s' ++ [Token.RightParen, Token.Eof]), n)
                  = Token.RightParen) from hrp)]
              cases hex : expressionF g Precedence.Pipeline.asU8
                  (t :: (s' ++ [Token.Eof]), n) with
              | error m => rw [hex] at h; exact Except.noConfusion h
              | ok v =>
                  obtain ⟨e1, v2⟩ := v
                  rw [hex] at h
                  simp only [Except.bind] at h
                  obtain ⟨τ1, hexτ, hrel1⟩ := ihE Precedence.Pipeline.asU8
                    (t :: (s' ++ [Token.Eof]), n)
                    (t :: (s' ++ [Token.RightParen, Token.Eof]), n) e1 v2
                    ⟨t :: s', n, rfl, rfl⟩ hex
                  rw [hexτ]
                  simp only [Except.bind]
                  -- comma skip: conditions agree under the relation
                  have hceq := current_eq_rel Token.Comma
                    (fun hc => Token.noConfusion hc) (fun hc => Token.noConfusion hc)
                    v2 τ1 hrel1
                  by_cases hcm : currentTok v2 = Token.Comma
                  · rw [if_pos hcm] at h
                    rw [if_pos (hceq ▸ hcm)]
                    obtain ⟨s2, n2, rfl, rfl⟩ := hrel1
                    cases s2 with
                    | nil => exact absurd hcm (fun hc => Token.noConfusion hc)
                    | cons u s2' =>
                        simp only [List.cons_append] at hcm h ⊢
                        have hu : u = Token.Comma := hcm
                        subst hu
                        rw [advanceTok_fst _ (s2' ++ [Token.Eof]) _ (by simp)] at h
                        rw [advanceTok_fst _ (s2' ++ [Token.RightParen, Token.Eof]) _
                          (by simp)]
                        exact ihC (acc ++ [e1]) _ _ es σ'
                          ⟨s2', _, rfl, rfl⟩ h
                  · rw [if_neg hcm] at h
                    rw [if_neg (show ¬ currentTok τ1 = Token.Comma from
                      fun hc => hcm (hceq.symm ▸ hc))]
                    exact ihC (acc ++ [e1]) v2 τ1 es σ' hrel1 h

end ClaimParensSim

section ClaimParens

open Mirrow.Parse

/-- **C5.**  Parenthesis grouping is transparent: if an expression parses
from the token list `ts` (consuming it down to the final `Eof`), then the
parenthesised token list `( ts )` parses (with two more units of fuel, one
for each extra token) to the *same* AST — `Parser::nud` returns the inner
expression of a parenthesised group without wrapping it in any node. -/
theorem parser_parens_transparent (f n n' : Nat) (ts : List Token) (e : Expr)
    (h : expressionF f Precedence.Pipeline.asU8 (ts ++ [Token.Eof], n)
      = Except.ok (e, ([Token.Eof], n'))) :
    expressionF (f + 2) Precedence.Pipeline.asU8
      (Token.LeftParen :: (ts ++ [Token.RightParen, Token.Eof]), n)
      = Except.ok (e, ([Token.Eof], n')) := by
  obtain ⟨τ', hτ, hrelend⟩ := (simAll f).1 Precedence.Pipeline.asU8 _ _ e _
    (ParenRel.mk' ts n) h
  obtain ⟨s, k, h1, h2⟩ := hrelend
  obtain ⟨h1a, h1b⟩ := Prod.mk.inj h1
  have hs : s = [] := by
    cases s with
    | nil => rfl
    | cons a as =>
        exfalso
        rw [List.cons_append] at h1a
        injection h1a with hx hy
        exact absurd hy.symm (by simp)
  subst hs
  subst h1b
  subst h2
  rw [show f + 2 = (f + 1) + 1 from rfl]
  rw [expressionF_succ]
  rw [nudF_cons f Token.LeftParen (ts ++ [Token.RightParen, Token.Eof]) n (by simp)]
  rw [show (if Token.LeftParen = Token.Newline then n + 1 else n) = n from rfl]
  rw [nudCase_lparen]
  rw [hτ]
  simp only [Except.bind]
  rw [show expectTok Token.RightParen (([] : List Token) ++ [Token.RightParen, Token.Eof], n')
    = Except.ok (([Token.Eof], n') : PSt) from rfl]
  simp only [Except.bind]
  rw [exprLoopF_succ]
  rw [show precedenceTok false (([Token.Eof] : List Token), n') = Except.ok 0 from rfl]
  simp only [Except.bind]
  rw [if_neg (show ¬ (Precedence.Pipeline.asU8 ≤ 0) from by decide)]

/-- Witness for `parser_parens_transparent` at the token list of `x + y`:
`x + y` parses to `Binary x Add y`, and `(x + y)` parses to the same AST. -/
theorem parser_parens_transparent_witness :
    expressionF 10 Precedence.Pipeline.asU8
        ([Token.Identifier "x", Token.Plus, Token.Identifier "y"] ++ [Token.Eof], 0)
      = Except.ok (Expr.Binary (Expr.Identifier "x") BinaryOp.Add (Expr.Identifier "y"),
          ([Token.Eof], 0))
    ∧ expressionF (10 + 2) Precedence.Pipeline.asU8
        (Token.LeftParen :: ([Token.Identifier "x", Token.Plus, Token.Identifier "y"]
          ++ [Token.RightParen, Token.Eof]), 0)
      = Except.ok (Expr.Binary (Expr.Identifier "x") BinaryOp.Add (Expr.Identifier "y"),
          ([Token.Eof], 0)) :=
  ⟨rfl, parser_parens_transparent 10 0 0
    [Token.Identifier "x", Token.Plus, Token.Identifier "y"]
    (Expr.Binary (Expr.Identifier "x") BinaryOp.Add (Expr.Identifier "y")) rfl⟩

end ClaimParens
